import Mathlib

/-!
# Verification of the Wandelscript language core against its specification

This development shallowly embeds the parts of the Wandelscript interpreter
(`src/wandelscript/`) that the specification's claims are about:

* the runtime variable store and its scope chain (`runtime.py`, class `Store`),
* the action queue with its motion buffers (`runtime.py`, class `ActionQueue`),
* the `with`-modifier construct and the `sync` block (`metamodel.py`,
  classes `Modifier`, `Context`, `SyncContext`, `Assignment`, `Write`),
* the frame graph (`frames.py`, class `FrameSystem`),
* the value serializer (`serializer.py` together with `types.py`), and
* the `assoc` builtin (`builtins/assoc.py`).

Python dictionaries are modelled as insertion-ordered association lists,
Python floats (used for path parameters and pose coordinates) as rationals,
rigid-body transforms (`cga3d.Vector` of the external geometricalgebra
package) as elements of an abstract group, and exceptions as explicit
error values threaded through `Except`/`Option` results.
-/

namespace WS

/-! ## Python dictionaries

An insertion-ordered association list.  `dictSet` follows
`dict.__setitem__`: an existing key is updated in place (keeping its
position), a new key is appended at the end.  -/

/-- `d[k] = v` for a Python dict: replace in place or append. -/
def dictSet {V : Type} (d : List (String × V)) (k : String) (v : V) :
    List (String × V) :=
  match d with
  | [] => [(k, v)]
  | (k0, v0) :: rest =>
      if k0 = k then (k, v) :: rest else (k0, v0) :: dictSet rest k v

/-- `d.get(k)` for a Python dict. -/
def dictGet {V : Type} (d : List (String × V)) (k : String) : Option V :=
  match d with
  | [] => none
  | (k0, v0) :: rest => if k0 = k then some v0 else dictGet rest k

/-- `k in d` for a Python dict. -/
def dictHasKey {V : Type} (d : List (String × V)) (k : String) : Bool :=
  (dictGet d k).isSome

/-- `d.update(pairs)` for a Python dict (`Store.update_local` uses this). -/
def dictUpdate {V : Type} (d : List (String × V)) (pairs : List (String × V)) :
    List (String × V) :=
  pairs.foldl (fun acc kv => dictSet acc kv.1 kv.2) d

theorem dictGet_dictSet_self {V : Type} (d : List (String × V)) (k : String) (v : V) :
    dictGet (dictSet d k v) k = some v := by
  induction d with
  | nil => simp [dictSet, dictGet]
  | cons hd tl ih =>
      obtain ⟨k0, v0⟩ := hd
      by_cases h : k0 = k
      · simp [dictSet, dictGet, h]
      · simp [dictSet, dictGet, h, ih]

theorem dictGet_dictSet_other {V : Type} (d : List (String × V)) (k m : String) (v : V)
    (h : m ≠ k) : dictGet (dictSet d k v) m = dictGet d m := by
  have hkm : ¬(k = m) := fun hh => h hh.symm
  induction d with
  | nil => simp [dictSet, dictGet, hkm]
  | cons hd tl ih =>
      obtain ⟨k0, v0⟩ := hd
      by_cases hk : k0 = k
      · subst hk
        have hm : ¬(k0 = m) := hkm
        simp [dictSet, dictGet, hm]
      · by_cases hm : k0 = m
        · simp [dictSet, dictGet, hk, hm, h]
        · simp [dictSet, dictGet, hk, hm, ih]

/-! ## The runtime store (`runtime.py`, class `Store`)

A store is a scope chain: the current scope first, its ancestors behind it
(`Store.scope_chain` yields `self` first and then the parent chain).  Each
scope's `_data` dict is an association list.  -/

/-- One scope's `_data` dictionary. -/
def Scope (V : Type) : Type := List (String × V)

/-- `Store.scope_of_name`: index (in the chain, current scope = 0) of the
nearest scope that defines `n`, if any. -/
def scopeOfName {V : Type} (chain : List (Scope V)) (n : String) : Option Nat :=
  chain.findIdx? (fun sc => dictHasKey sc n)

/-- `Store.__getitem__` (as an `Option`; Python raises `KeyError` on `none`):
look the name up in the nearest scope that defines it. -/
def storeGet {V : Type} (chain : List (Scope V)) (n : String) : Option V :=
  match chain with
  | [] => none
  | sc :: rest =>
      match dictGet sc n with
      | some v => some v
      | none => storeGet rest n

/-- `Store.__setitem__`: if some scope in the chain already defines `n`,
the nearest such scope is mutated; otherwise the current scope is. -/
def storeSet {V : Type} (chain : List (Scope V)) (n : String) (v : V) :
    List (Scope V) :=
  match chain with
  | [] => []
  | sc :: rest =>
      match scopeOfName (sc :: rest) n with
      | none => dictSet sc n v :: rest
      | some 0 => dictSet sc n v :: rest
      | some (_ + 1) => sc :: storeSet rest n v

/-- `Store.update_local`: merge the pairs into the current scope's dict,
never touching the parents. -/
def updateLocal {V : Type} (chain : List (Scope V)) (pairs : List (String × V)) :
    List (Scope V) :=
  match chain with
  | [] => []
  | sc :: rest => dictUpdate sc pairs :: rest

/-- The scope index that `storeSet` writes to: the nearest defining scope,
else the current scope (index 0). -/
def targetIndex {V : Type} (chain : List (Scope V)) (n : String) : Nat :=
  (scopeOfName chain n).getD 0

theorem scopeOfName_cons {V : Type} (sc : Scope V) (rest : List (Scope V)) (n : String) :
    scopeOfName (sc :: rest) n =
      if dictHasKey sc n then some 0 else (scopeOfName rest n).map (· + 1) := by
  unfold scopeOfName
  rw [List.findIdx?_cons]
  by_cases h : dictHasKey sc n
  · simp [h]
  · simp only [h, if_false, Bool.false_eq_true]
    rw [List.findIdx?_succ]

/-- `storeSet` rewrites exactly the target scope (with `dictSet`) and keeps
every other scope of the chain unchanged. -/
theorem storeSet_scopes {V : Type} (chain : List (Scope V)) (n : String) (v : V) :
    ∀ j, (storeSet chain n v)[j]? =
      if j = targetIndex chain n then (chain[j]?).map (fun sc => dictSet sc n v)
      else chain[j]? := by
  induction chain with
  | nil =>
      intro j
      simp only [storeSet]
      rw [List.getElem?_nil]
      simp
  | cons sc rest ih =>
      intro j
      by_cases h : dictHasKey sc n
      · have hs : scopeOfName (sc :: rest) n = some 0 := by
          rw [scopeOfName_cons]; simp [h]
        have ht : targetIndex (sc :: rest) n = 0 := by
          simp [targetIndex, hs]
        rw [ht]
        cases j with
        | zero =>
            rw [List.getElem?_cons_zero]
            simp [storeSet, hs]
        | succ i =>
            rw [List.getElem?_cons_succ]
            simp [storeSet, hs]
      · have hs : scopeOfName (sc :: rest) n = (scopeOfName rest n).map (· + 1) := by
          rw [scopeOfName_cons]; simp [h]
        cases hr : scopeOfName rest n with
        | none =>
            have hs0 : scopeOfName (sc :: rest) n = none := by rw [hs, hr]; rfl
            have ht : targetIndex (sc :: rest) n = 0 := by simp [targetIndex, hs0]
            rw [ht]
            cases j with
            | zero =>
                rw [List.getElem?_cons_zero]
                simp [storeSet, hs0]
            | succ i =>
                rw [List.getElem?_cons_succ]
                simp [storeSet, hs0]
        | some i =>
            have hs1 : scopeOfName (sc :: rest) n = some (i + 1) := by rw [hs, hr]; rfl
            have ht : targetIndex (sc :: rest) n = i + 1 := by simp [targetIndex, hs1]
            rw [ht]
            cases j with
            | zero =>
                rw [List.getElem?_cons_zero]
                simp [storeSet, hs1]
            | succ m =>
                have hm := ih m
                rw [targetIndex, hr] at hm
                rw [List.getElem?_cons_succ]
                simp only [storeSet, hs1, List.getElem?_cons_succ]
                rw [hm]
                by_cases hmi : m = i
                · simp [hmi]
                · simp [hmi]

theorem storeGet_eq_of_scopes {V : Type} (c1 c2 : List (Scope V)) (m : String)
    (hlen : c1.length = c2.length)
    (h : ∀ j : Nat,
      c1[j]?.map (fun sc => dictGet sc m) = c2[j]?.map (fun sc => dictGet sc m)) :
    storeGet c1 m = storeGet c2 m := by
  induction c1 generalizing c2 with
  | nil => cases c2 with
    | nil => rfl
    | cons b bs => simp at hlen
  | cons a as ih =>
      cases c2 with
      | nil => simp at hlen
      | cons b bs =>
          have h0 := h 0
          simp only [List.getElem?_cons_zero, Option.map_some] at h0
          have hab : dictGet a m = dictGet b m := by
            exact Option.some.inj h0
          simp only [storeGet, hab]
          cases dictGet b m with
          | some v => rfl
          | none =>
              exact ih bs (by simpa using hlen)
                (fun j => by simpa [List.getElem?_cons_succ] using h (j + 1))

theorem storeSet_length {V : Type} (chain : List (Scope V)) (n : String) (v : V) :
    (storeSet chain n v).length = chain.length := by
  induction chain with
  | nil => rfl
  | cons sc rest ih =>
      simp only [storeSet]
      cases hs : scopeOfName (sc :: rest) n with
      | none => simp
      | some i => cases i with
        | zero => simp
        | succ m => simp [ih]

/-! ## Tuple-destructuring assignment (`metamodel.py`, `Assignment.call`)

For `a, b, ... = e` the interpreter checks `isinstance(value, (list, tuple))`,
raises `TypeError()` otherwise, and runs
`context.store.update_local(zip(self.name, value))`. -/

/-- A Python runtime value as seen by `Assignment.call`: either a
list/tuple or any other (non-sequence) value. -/
inductive PyVal (V : Type) where
  | seq : List V → PyVal V
  | scalar : V → PyVal V

/-- `Assignment.call` for the tuple-destructuring form (`self.name` a tuple
of names): `zip` truncates to the shorter operand, and the pairs are merged
into the *current* scope via `Store.update_local`. -/
def assignMulti {V : Type} (names : List String) (value : PyVal V)
    (chain : List (Scope V)) : Except Unit (List (Scope V)) :=
  match value with
  | .scalar _ => .error ()
  | .seq vs => .ok (updateLocal chain (names.zip vs))

theorem dictGet_dictUpdate_notmem {V : Type} (d : List (String × V))
    (pairs : List (String × V)) (x : String) (h : x ∉ pairs.map Prod.fst) :
    dictGet (dictUpdate d pairs) x = dictGet d x := by
  induction pairs generalizing d with
  | nil => rfl
  | cons p ps ih =>
      simp only [List.map_cons, List.mem_cons] at h
      push_neg at h
      simp only [dictUpdate, List.foldl_cons]
      rw [show List.foldl (fun acc kv => dictSet acc kv.1 kv.2) (dictSet d p.1 p.2) ps
            = dictUpdate (dictSet d p.1 p.2) ps from rfl]
      rw [ih _ h.2, dictGet_dictSet_other _ _ _ _ h.1]

theorem dictGet_dictUpdate_mem {V : Type} (d : List (String × V))
    (pairs : List (String × V)) (k : String) (v : V)
    (hnd : (pairs.map Prod.fst).Nodup) (hmem : (k, v) ∈ pairs) :
    dictGet (dictUpdate d pairs) k = some v := by
  induction pairs generalizing d with
  | nil => cases hmem
  | cons p ps ih =>
      simp only [List.map_cons, List.nodup_cons] at hnd
      simp only [dictUpdate, List.foldl_cons]
      rw [show List.foldl (fun acc kv => dictSet acc kv.1 kv.2) (dictSet d p.1 p.2) ps
            = dictUpdate (dictSet d p.1 p.2) ps from rfl]
      rcases List.mem_cons.mp hmem with heq | hmem2
      · subst heq
        rw [dictGet_dictUpdate_notmem _ _ _ hnd.1]
        exact dictGet_dictSet_self _ _ _
      · exact ih _ hnd.2 hmem2

theorem map_fst_zip_eq_take {α β : Type} :
    ∀ (l1 : List α) (l2 : List β), (l1.zip l2).map Prod.fst = l1.take l2.length
  | [], _ => by simp
  | _ :: _, [] => by simp
  | a :: t1, b :: t2 => by simp [map_fst_zip_eq_take t1 t2]

theorem storeGet_storeSet_self {V : Type} (chain : List (Scope V)) (n : String) (v : V)
    (hne : chain ≠ []) : storeGet (storeSet chain n v) n = some v := by
  induction chain with
  | nil => cases hne rfl
  | cons sc rest ih =>
      by_cases h : dictHasKey sc n
      · have hs : scopeOfName (sc :: rest) n = some 0 := by
          rw [scopeOfName_cons]; simp [h]
        simp [storeSet, hs, storeGet, dictGet_dictSet_self]
      · have hs : scopeOfName (sc :: rest) n = (scopeOfName rest n).map (· + 1) := by
          rw [scopeOfName_cons]; simp [h]
        have hget : dictGet sc n = none := by
          unfold dictHasKey at h
          cases hg : dictGet sc n with
          | none => rfl
          | some w => rw [hg] at h; simp at h
        cases hr : scopeOfName rest n with
        | none =>
            have hs0 : scopeOfName (sc :: rest) n = none := by rw [hs, hr]; rfl
            simp [storeSet, hs0, storeGet, dictGet_dictSet_self]
        | some i =>
            have hs1 : scopeOfName (sc :: rest) n = some (i + 1) := by rw [hs, hr]; rfl
            have hrne : rest ≠ [] := by
              intro hnil
              rw [hnil] at hr
              simp [scopeOfName] at hr
            simp [storeSet, hs1, storeGet, hget, ih hrne]

theorem storeGet_storeSet_other {V : Type} (chain : List (Scope V)) (n m : String)
    (v : V) (hmn : m ≠ n) : storeGet (storeSet chain n v) m = storeGet chain m := by
  apply storeGet_eq_of_scopes _ _ _ (storeSet_length chain n v)
  intro j
  rw [storeSet_scopes]
  by_cases hj : j = targetIndex chain n
  · rw [if_pos hj]
    cases chain[j]? with
    | none => rfl
    | some sc => simp [dictGet_dictSet_other _ _ _ _ hmn]
  · rw [if_neg hj]

/-- C6: scalar assignment `store[n] = v` (`Store.__setitem__`, runtime.py):
the write goes to the nearest scope of the chain that already defines `n`
(`targetIndex` is that scope's index, or 0 — the current scope — when no
scope defines `n`); a subsequent lookup of `n` from the current scope
returns `v`; every other scope of the chain and every binding of any other
name is unchanged. -/
theorem C6_scalar_assignment {V : Type} (chain : List (Scope V)) (n : String) (v : V)
    (hne : chain ≠ []) :
    storeGet (storeSet chain n v) n = some v
    ∧ (∀ m : String, m ≠ n → storeGet (storeSet chain n v) m = storeGet chain m)
    ∧ (∀ j : Nat, (storeSet chain n v)[j]? =
        if j = targetIndex chain n then (chain[j]?).map (fun sc => dictSet sc n v)
        else chain[j]?)
    ∧ (scopeOfName chain n = none → targetIndex chain n = 0)
    ∧ (∀ i : Nat, scopeOfName chain n = some i → targetIndex chain n = i)
    ∧ (∀ j : Nat, ∀ m : String, m ≠ n →
        ((storeSet chain n v)[j]?).map (fun sc => dictGet sc m)
          = (chain[j]?).map (fun sc => dictGet sc m)) := by
  refine ⟨storeGet_storeSet_self chain n v hne,
    fun m hm => storeGet_storeSet_other chain n m v hm,
    storeSet_scopes chain n v,
    fun h0 => by simp [targetIndex, h0],
    fun i hi => by simp [targetIndex, hi],
    fun j m hm => ?_⟩
  rw [storeSet_scopes]
  by_cases hj : j = targetIndex chain n
  · rw [if_pos hj]
    cases chain[j]? with
    | none => rfl
    | some sc => simp [dictGet_dictSet_other _ _ _ _ hm]
  · rw [if_neg hj]

/-- C6 witness: a two-scope chain where the parent defines `n`; the
assignment mutates the parent scope (index 1), lookups behave as claimed. -/
theorem C6_scalar_assignment_witness :
    (([[("x", 1)], [("n", 0)]] : List (Scope Nat)) ≠ []) ∧
    (storeGet (storeSet [[("x", 1)], [("n", 0)]] "n" 5) "n" = some 5
    ∧ (∀ m : String, m ≠ "n" →
        storeGet (storeSet [[("x", 1)], [("n", 0)]] "n" 5) m
          = storeGet ([[("x", 1)], [("n", 0)]] : List (Scope Nat)) m)
    ∧ (∀ j : Nat, (storeSet [[("x", 1)], [("n", 0)]] "n" 5)[j]? =
        if j = targetIndex ([[("x", 1)], [("n", 0)]] : List (Scope Nat)) "n"
        then ((([[("x", 1)], [("n", 0)]] : List (Scope Nat))[j]?).map
          (fun sc => dictSet sc "n" 5))
        else ([[("x", 1)], [("n", 0)]] : List (Scope Nat))[j]?)
    ∧ (scopeOfName ([[("x", 1)], [("n", 0)]] : List (Scope Nat)) "n" = none →
        targetIndex ([[("x", 1)], [("n", 0)]] : List (Scope Nat)) "n" = 0)
    ∧ (∀ i : Nat, scopeOfName ([[("x", 1)], [("n", 0)]] : List (Scope Nat)) "n" = some i →
        targetIndex ([[("x", 1)], [("n", 0)]] : List (Scope Nat)) "n" = i)
    ∧ (∀ j : Nat, ∀ m : String, m ≠ "n" →
        ((storeSet [[("x", 1)], [("n", 0)]] "n" 5)[j]?).map (fun sc => dictGet sc m)
          = (([[("x", 1)], [("n", 0)]] : List (Scope Nat))[j]?).map
            (fun sc => dictGet sc m))) :=
  ⟨List.cons_ne_nil _ _, C6_scalar_assignment [[("x", 1)], [("n", 0)]] "n" 5
    (List.cons_ne_nil _ _)⟩

/-- C10: tuple-destructuring assignment `a, b, ... = e` (`Assignment.call`,
metamodel.py): a non-sequence right-hand side raises `TypeError`; a
sequence is bound via `Store.update_local(zip(names, value))`, so all
bindings land in the current scope `sc2` and the parent scopes `rest` are
returned untouched (even when they define the same names); `zip` performs
no arity check: name `k` receives value `k` only for `k` below both
lengths, and any name outside the first `vs.length` names keeps its old
local binding (surplus names unassigned, surplus values dropped). -/
theorem C10_tuple_destructuring {V : Type} (names : List String) (vs : List V)
    (sc : Scope V) (rest : List (Scope V)) (w : V) (hnd : names.Nodup) :
    assignMulti names (.scalar w) (sc :: rest) = .error ()
    ∧ ∃ sc2 : Scope V, assignMulti names (.seq vs) (sc :: rest) = .ok (sc2 :: rest)
      ∧ (∀ k : Nat, ∀ hk1 : k < names.length, ∀ hk2 : k < vs.length,
          dictGet sc2 (names.get ⟨k, hk1⟩) = some (vs.get ⟨k, hk2⟩))
      ∧ (∀ x : String, x ∉ names.take vs.length → dictGet sc2 x = dictGet sc x) := by
  refine ⟨rfl, dictUpdate sc (names.zip vs), rfl, ?_, ?_⟩
  · intro k hk1 hk2
    have hklt : k < (names.zip vs).length := by
      rw [List.length_zip]
      exact lt_min hk1 hk2
    have hmem : (names.get ⟨k, hk1⟩, vs.get ⟨k, hk2⟩) ∈ names.zip vs := by
      rw [List.get_eq_getElem, List.get_eq_getElem]
      have hz : (names.zip vs)[k] = (names[k], vs[k]) := List.getElem_zip
      rw [← hz]
      exact List.getElem_mem hklt
    apply dictGet_dictUpdate_mem _ _ _ _ _ hmem
    rw [map_fst_zip_eq_take]
    exact hnd.sublist (List.take_sublist _ _)
  · intro x hx
    apply dictGet_dictUpdate_notmem
    rw [map_fst_zip_eq_take]
    exact hx

/-- C10 witness: two names, a one-element tuple, a parent scope that also
defines the names: the first name is bound locally, the second stays
unbound locally, the parent is untouched, and a non-sequence errors. -/
theorem C10_tuple_destructuring_witness :
    (["a", "b"] : List String).Nodup ∧
    (assignMulti ["a", "b"] (.scalar 7) ([[("x", 9)], [("a", 0), ("b", 0)]] :
        List (Scope Nat)) = .error ()
    ∧ ∃ sc2 : Scope Nat,
        assignMulti ["a", "b"] (.seq [5]) [[("x", 9)], [("a", 0), ("b", 0)]]
          = .ok (sc2 :: [[("a", 0), ("b", 0)]])
      ∧ (∀ k : Nat, ∀ hk1 : k < (["a", "b"] : List String).length,
          ∀ hk2 : k < ([5] : List Nat).length,
          dictGet sc2 ((["a", "b"] : List String).get ⟨k, hk1⟩)
            = some (([5] : List Nat).get ⟨k, hk2⟩))
      ∧ (∀ x : String, x ∉ (["a", "b"] : List String).take 1 →
          dictGet sc2 x = dictGet [("x", 9)] x)) :=
  ⟨by decide, C10_tuple_destructuring ["a", "b"] [5] [("x", 9)]
    [[("a", 0), ("b", 0)]] 7 (by decide)⟩

/-! ## The action queue (`runtime.py`, class `ActionQueue`)

The queue's `_record` maps a motion-group id to a `CombinedActions`
container (external package nova).  The container keeps the appended
entries in order; `container.motions` are the motion entries,
`container.actions` the action entries (`ActionLocation`s carrying a path
parameter; `attach_action` appends an action with nova's default path
parameter 0), and `len(container)` counts all appended entries.  Path
parameters are Python floats; they are modelled as rationals. -/

/-- One entry of a `CombinedActions` container: a motion, or an attached
action with its path parameter. -/
inductive QItem (M A : Type) where
  | motion : M → QItem M A
  | act : ℚ → A → QItem M A
  deriving DecidableEq

/-- `container.motions`. -/
def motionsOf {M A : Type} (items : List (QItem M A)) : List M :=
  items.filterMap fun it =>
    match it with
    | .motion m => some m
    | .act _ _ => none

/-- `container.actions` (the `ActionLocation` list: path parameter and action). -/
def actionsOf {M A : Type} (items : List (QItem M A)) : List (ℚ × A) :=
  items.filterMap fun it =>
    match it with
    | .motion _ => none
    | .act p a => some (p, a)

/-- The wandelscript `MotionError` reasons that `ActionQueue.push` raises. -/
inductive PushErr where
  | toolChanged
  | limitExceeded
  deriving DecidableEq

/-- The mutable state of the queue that `push` touches: `_tcp`, `_record`
and `_last_motions`. -/
structure QueueState (M A : Type) where
  tcp : List (String × String)
  record : List (String × List (QItem M A))
  lastMotions : List (String × M)
  deriving DecidableEq

/-- `ActionQueue.MOTION_LIMIT_IN` (runtime.py line 341). -/
def MOTION_LIMIT_IN : Nat := 10000

/-- The buffer of a motion group (empty when the group has no entry). -/
def bufferOf {M A : Type} (st : QueueState M A) (mg : String) : List (QItem M A) :=
  (dictGet st.record mg).getD []

/-- Python truthiness of the `tool` argument combined with the comparison
`self._tcp[motion_group_id] != tool` (`if tool and ... != tool`). -/
def toolConflict (cur : Option String) (tool : Option String) : Bool :=
  match tool with
  | none => false
  | some t => if t = "" then false else decide (cur ≠ some t)

/-- The per-motion loop of `ActionQueue.push`: create the group's record
entry if missing, raise `MotionError` when the container already holds
`MOTION_LIMIT_IN` entries, otherwise append the motion and update
`_last_motions`.  The raise aborts the loop but keeps all mutations made
so far (Python mutates `self` in place). -/
def pushLoop {M A : Type} (mg : String) :
    QueueState M A → List M → QueueState M A × Option PushErr
  | st, [] => (st, none)
  | st, m :: ms =>
      let record0 := if dictHasKey st.record mg then st.record else dictSet st.record mg []
      let items := (dictGet record0 mg).getD []
      if MOTION_LIMIT_IN ≤ items.length then
        ({ st with record := record0 }, some .limitExceeded)
      else
        pushLoop mg
          { st with
            record := dictSet record0 mg (items ++ [QItem.motion m]),
            lastMotions := dictSet st.lastMotions mg m } ms

/-- `ActionQueue.push` (runtime.py lines 474-511): fix the tool for the
group on first use (`if tool is not None`), raise `MotionError` when a
truthy tool differs from the fixed one, then run the per-motion loop. -/
def push {M A : Type} (st : QueueState M A) (motions : List M) (tool : Option String)
    (mg : String) : QueueState M A × Option PushErr :=
  if dictHasKey st.tcp mg then
    if toolConflict (dictGet st.tcp mg) tool then (st, some .toolChanged)
    else pushLoop mg st motions
  else
    match tool with
    | none => pushLoop mg st motions
    | some t => pushLoop mg { st with tcp := dictSet st.tcp mg t } motions

/-- `ActionQueue.attach_action`: create the group's entry if missing and
append the action (nova default path parameter 0). -/
def attachAction {M A : Type} (record : List (String × List (QItem M A))) (a : A)
    (mg : String) : List (String × List (QItem M A)) :=
  let items := (dictGet record mg).getD []
  dictSet record mg (items ++ [QItem.act 0 a])

/-- `ActionQueue.is_empty`: `not any(self._record.values())` — true iff
every group's container is empty. -/
def isEmptyQueue {M A : Type} (record : List (String × List (QItem M A))) : Bool :=
  record.all fun e => e.2.isEmpty

/-! ## `trigger_actions` and `_run` (runtime.py lines 364-425) -/

/-- Stable insertion into a list sorted by path parameter: the new element
goes after every element with a path parameter ≤ its own.  Folding this
over a list reproduces Python's stable `sorted(actions, key=path_parameter)`. -/
def insSorted {A : Type} (x : ℚ × A) : List (ℚ × A) → List (ℚ × A)
  | [] => [x]
  | y :: ys => if y.1 ≤ x.1 then y :: insSorted x ys else x :: y :: ys

/-- Python `sorted(actions, key=lambda action: action.path_parameter)`
(a stable sort). -/
def sortByPP {A : Type} (l : List (ℚ × A)) : List (ℚ × A) :=
  l.foldl (fun acc x => insSorted x acc) []

/-- The state loop of `ActionQueue.trigger_actions`: for each streamed
motion state (given by its path parameter), fire the maximal prefix of the
pending sorted actions whose path parameter is ≤ the state's, delete the
fired prefix, and continue.  Returns the fired actions in execution
order.  (Interrupt callbacks and the stop event are not modelled: the runs
we evaluate register none and never stop.) -/
def triggerLoop {A : Type} : List ℚ → List (ℚ × A) → List A
  | [], _ => []
  | pp :: states, acts =>
      let fired := (acts.takeWhile fun pa => decide (pa.1 ≤ pp)).map Prod.snd
      let rest := acts.dropWhile fun pa => decide (pa.1 ≤ pp)
      fired ++ triggerLoop states rest

/-- `ActionQueue.trigger_actions`: sort the attached actions by path
parameter, then run the state loop over the streamed motion states. -/
def triggerActions {A : Type} (states : List ℚ) (acts : List (ℚ × A)) : List A :=
  triggerLoop states (sortByPP acts)

/-- `ActionQueue._run` (runtime.py lines 384-425), restricted to the
actions it executes.  For every motion group of `_record` (dict order):
when the buffer holds at least one motion, the planner is invoked, a
trigger iterator over a copy of the attached actions is registered in
`planned_motions` — and then the loop
`for action_container in container.actions: await self.run_action(...)`
(which sits *inside* the `if len(container.motions) > 0` branch, despite
its comment saying it is for the empty-trajectory case) executes every
attached action immediately.  Buffers without motions execute nothing.
The registered trigger iterators are consumed only afterwards, in the
`stream.merge` phase, firing the attached actions a second time; the merge
interleaves the per-group traces but preserves each group's order, so we
return the immediate trace together with the list of per-group trigger
traces.  `streams` gives the path parameters of the motion states that
`stream_execute` yields for each group. -/
def drainTraces {M A : Type} (record : List (String × List (QItem M A)))
    (streams : String → List ℚ) : List A × List (List A) :=
  (record.foldl
      (fun acc e =>
        if 0 < (motionsOf e.2).length then acc ++ (actionsOf e.2).map Prod.snd else acc)
      [],
    record.filterMap fun e =>
      if 0 < (motionsOf e.2).length then
        some (triggerActions (streams e.1) (actionsOf e.2))
      else none)

/-! ## The `with` modifier context (`metamodel.py`, `Modifier.call` and
`Context.call`)

A modifier call performs its effect on the interpreter state and returns
an undo closure (its `on_exit` function).  A suite body returns the final
state and, when it raises, the error — Python state mutations made before
the raise survive it. -/

/-- A single modifier call. -/
def ModifierFn (S : Type) : Type := S → S × (S → S)

/-- A suite body (or handler): final state plus the raised error, if any. -/
def BodyFn (S E : Type) : Type := S → S × Option E

/-- The `exit_funcs` collection of `Modifier.call`: run the modifier calls
left to right and collect their undo closures in call order. -/
def modifierCall {S : Type} (mods : List (ModifierFn S)) (s : S) :
    S × List (S → S) :=
  match mods with
  | [] => (s, [])
  | f :: rest =>
      let p := f s
      let q := modifierCall rest p.1
      (q.1, p.2 :: q.2)

/-- The `on_exit` closure returned by `Modifier.call`: `for f in
exit_funcs: await f(context)` — the undo closures run in the *same* order
they were collected, not in reverse. -/
def onExit {S : Type} (undos : List (S → S)) (s : S) : S :=
  undos.foldl (fun st f => f st) s

/-- `Context.call`: `on_exit = await self.modifier(context); await
self.body(context); await on_exit(context)`.  There is no try/finally:
when the body raises, `on_exit` is never invoked. -/
def contextCall {S E : Type} (mods : List (ModifierFn S)) (body : BodyFn S E)
    (s : S) : S × Option E :=
  let p := modifierCall mods s
  let q := body p.1
  match q.2 with
  | none => (onExit p.2 q.1, none)
  | some e => (q.1, some e)

/-- Observable events for exercising the modifier context: modifier `i`
applied, modifier `i` undone, the body ran. -/
inductive Ev where
  | applyM : Nat → Ev
  | undoM : Nat → Ev
  | bodyRun : Ev
  deriving DecidableEq

/-- A tracing modifier: records its application and returns an undo
closure that records its undoing. -/
def tmod (i : Nat) : ModifierFn (List Ev) :=
  fun s => (s ++ [Ev.applyM i], fun st => st ++ [Ev.undoM i])

/-- A tracing body that exits normally. -/
def okBody : BodyFn (List Ev) Unit := fun s => (s ++ [Ev.bodyRun], none)

/-- A tracing body that raises. -/
def errBody : BodyFn (List Ev) Unit := fun s => (s ++ [Ev.bodyRun], some ())

/-! ## The sync block (`metamodel.py`, `SyncContext.call`; `exception.py`)

`SyncContext.call` wraps the optional do-body and the drain in
`try: ... except (RobotMotionError, wandelscript.exception.UserError)`.
`RobotMotionError` comes from the external package nova
(`nova.core.robot_cell`); wandelscript's own `MotionError` (exception.py
line 115) derives from `ProgramRuntimeError → ProgramError → Exception`
and is *not* a `RobotMotionError`, so the clause does not catch it. -/

/-- The error classes relevant to a sync block. -/
inductive ErrKind where
  | robotMotionErr
  | userErr
  | wsMotionErr
  | otherErr
  deriving DecidableEq

/-- The `isinstance` test of the except clause (metamodel.py line 377)
against `(RobotMotionError, UserError)`, per the class hierarchy of
exception.py and nova. -/
def caughtBySync : ErrKind → Bool
  | .robotMotionErr => true
  | .userErr => true
  | .wsMotionErr => false
  | .otherErr => false

/-- The except clause: a caught error runs the handler when present
(swallowing the error) and re-raises otherwise; an uncaught error
propagates. -/
def syncHandle {S : Type} (handler : Option (BodyFn S ErrKind)) (s : S)
    (e : ErrKind) : S × Option ErrKind :=
  if caughtBySync e then
    match handler with
    | some h => h s
    | none => (s, some e)
  else (s, some e)

/-- `SyncContext.call` (metamodel.py lines 372-384): run the optional
do-body, then the drain, inside the `try`; on an error consult the except
clause; when nothing was raised run the optional sync body (the `else`
branch). -/
def syncContextCall {S : Type} (doBody : Option (BodyFn S ErrKind))
    (drain : BodyFn S ErrKind) (syncBody handler : Option (BodyFn S ErrKind))
    (s : S) : S × Option ErrKind :=
  let p :=
    match doBody with
    | none => (s, (none : Option ErrKind))
    | some b => b s
  match p.2 with
  | some e => syncHandle handler p.1 e
  | none =>
      let q := drain p.1
      match q.2 with
      | some e => syncHandle handler q.1 e
      | none =>
          match syncBody with
          | none => (q.1, none)
          | some b => b q.1

/-! ## The write statement (`metamodel.py`, `Write.call`) -/

/-- A `WriteAction` (`nova.actions.io`): device id, key, value. -/
structure WriteAction (V : Type) where
  device : String
  key : String
  value : V
  deriving DecidableEq

/-- The state `Write.call` touches: the queue's `_record` and the
observable device state, modelled as the list of writes the devices have
performed (`run_action(WriteAction)` awaits `device.write(key, value)`). -/
structure WriteEnv (M V : Type) where
  record : List (String × List (QItem M (WriteAction V)))
  deviceWrites : List (WriteAction V)
  deriving DecidableEq

/-- `Write.call` (metamodel.py lines 1594-1616): build the `WriteAction`;
when the action queue is empty run it immediately against the device,
otherwise attach it to the active robot's buffer to trigger on the path. -/
def writeCall {M V : Type} (env : WriteEnv M V) (dev key : String) (value : V)
    (activeRobot : String) : WriteEnv M V :=
  let a : WriteAction V := ⟨dev, key, value⟩
  if isEmptyQueue env.record then
    { env with deviceWrites := env.deviceWrites ++ [a] }
  else
    { env with record := attachAction env.record a activeRobot }

/-! ## The `assoc` builtin (`builtins/assoc.py`)

`assoc` dispatches on the container type.  For tuples, `Vector3d` and
`Pose` it copies the components into a Python list, assigns
`tmp[key] = val` (Python index semantics: negative indices count from the
end, out-of-range raises `IndexError`) and rebuilds the container.  For
records it copies the mapping (`dict(record)`), assigns the key and calls
`t.Record(data=tmp)`.  Numeric components (Python floats) are modelled as
rationals. -/

/-- Python list index resolution: `-len ≤ k < len`, negative counts from
the end; `none` is an `IndexError`. -/
def pyIndex (len : Nat) (k : Int) : Option Nat :=
  if 0 ≤ k then (if k < (len : Int) then some k.toNat else none)
  else (if -(len : Int) ≤ k then some ((len : Int) + k).toNat else none)

/-- Python `tmp[key] = val` on a list copy. -/
def listAssign {α : Type} (l : List α) (k : Int) (v : α) : Option (List α) :=
  (pyIndex l.length k).map (fun i => l.set i v)

/-- `assoc` on a tuple: copy, assign, rebuild as a tuple. -/
def assocTuple {α : Type} (tup : List α) (k : Int) (v : α) : Option (List α) :=
  listAssign tup k v

/-- Rebuild `Vector3d(*tmp)` from the mutated list copy. -/
def vecOfList : List ℚ → Option (ℚ × ℚ × ℚ)
  | [a, b, c] => some (a, b, c)
  | _ => none

/-- `assoc` on a `Vector3d`. -/
def assocVec (v : ℚ × ℚ × ℚ) (k : Int) (val : ℚ) : Option (ℚ × ℚ × ℚ) :=
  (listAssign [v.1, v.2.1, v.2.2] k val).bind vecOfList

/-- Rebuild `Pose(tuple(tmp))` from the mutated 6-element list copy. -/
def poseOfList : List ℚ → Option ((ℚ × ℚ × ℚ) × (ℚ × ℚ × ℚ))
  | [a, b, c, d, e, f] => some ((a, b, c), (d, e, f))
  | _ => none

/-- The 6-tuple `pose.to_tuple()`. -/
def poseToList (p : (ℚ × ℚ × ℚ) × (ℚ × ℚ × ℚ)) : List ℚ :=
  [p.1.1, p.1.2.1, p.1.2.2, p.2.1, p.2.2.1, p.2.2.2]

/-- `assoc` on a `Pose`. -/
def assocPose (p : (ℚ × ℚ × ℚ) × (ℚ × ℚ × ℚ)) (k : Int) (val : ℚ) :
    Option ((ℚ × ℚ × ℚ) × (ℚ × ℚ × ℚ)) :=
  (listAssign (poseToList p) k val).bind poseOfList

/-- `t.Record(data=tmp)` (builtins/assoc.py line 68): the live `types.py`
`Record` model has the field `record`, not `data`; pydantic's default
`extra='ignore'` silently drops the unknown `data` keyword, so the
constructed record carries the field default — an empty mapping.  The
argument is ignored entirely. -/
def recordFromDataKw {V : Type} (_tmp : List (String × V)) : List (String × V) := []

/-- `assoc` on a `Record`: `tmp = dict(record); tmp[key] = val;
t.Record(data=tmp)`. -/
def assocRecord {V : Type} (r : List (String × V)) (k : String) (v : V) :
    List (String × V) :=
  recordFromDataKw (dictSet r k v)

theorem listAssign_length {α : Type} (l : List α) (k : Int) (v : α) (y : List α)
    (h : listAssign l k v = some y) : y.length = l.length := by
  unfold listAssign at h
  cases hi : pyIndex l.length k with
  | none => rw [hi] at h; cases h
  | some i =>
      rw [hi] at h
      simp only [Option.map_some'] at h
      rw [← Option.some.inj h]
      exact List.length_set l i v

theorem listAssign_absorb {α : Type} (l : List α) (k : Int) (v1 v2 : α) (y : List α)
    (h : listAssign l k v1 = some y) :
    listAssign y k v2 = listAssign l k v2 := by
  have hlen : y.length = l.length := listAssign_length l k v1 y h
  unfold listAssign at h ⊢
  rw [hlen]
  cases hi : pyIndex l.length k with
  | none => rfl
  | some i =>
      rw [hi] at h
      simp only [Option.map_some'] at h
      rw [← Option.some.inj h]
      simp [List.set_set]

theorem vecOfList_inv (y : List ℚ) (w : ℚ × ℚ × ℚ) (h : vecOfList y = some w) :
    y = [w.1, w.2.1, w.2.2] := by
  rcases y with _ | ⟨a, _ | ⟨b, _ | ⟨c, _ | ⟨d, y⟩⟩⟩⟩
  · simp [vecOfList] at h
  · simp [vecOfList] at h
  · simp [vecOfList] at h
  · injection h with h2
    rw [← h2]
  · simp [vecOfList] at h

theorem poseOfList_inv (y : List ℚ) (w : (ℚ × ℚ × ℚ) × (ℚ × ℚ × ℚ))
    (h : poseOfList y = some w) : y = poseToList w := by
  rcases y with _ | ⟨a, _ | ⟨b, _ | ⟨c, _ | ⟨d, _ | ⟨e, _ | ⟨f, _ | ⟨g, y⟩⟩⟩⟩⟩⟩⟩
  · simp [poseOfList] at h
  · simp [poseOfList] at h
  · simp [poseOfList] at h
  · simp [poseOfList] at h
  · simp [poseOfList] at h
  · simp [poseOfList] at h
  · injection h with h2
    rw [← h2]
    rfl
  · simp [poseOfList] at h

/-- C9: `assoc` is pure (it copies and rebuilds, never mutating its
argument) and overwriting is absorbing on every supported container:
tuples, `Vector3d`, `Pose` (for any key Python accepts) and records.  The
record case holds because `assoc` on a record — faithfully embedded with
the `Record(data=tmp)` constructor whose `data` keyword the live
`types.py` model ignores — returns the empty record for *any* input, so
both sides coincide. -/
theorem C9_assoc_leaves_input_and_absorbs :
    (∀ (tup : List ℚ) (k : Int) (v1 v2 : ℚ) (y : List ℚ),
        assocTuple tup k v1 = some y →
        assocTuple y k v2 = assocTuple tup k v2)
    ∧ (∀ (v : ℚ × ℚ × ℚ) (k : Int) (v1 v2 : ℚ) (w : ℚ × ℚ × ℚ),
        assocVec v k v1 = some w →
        assocVec w k v2 = assocVec v k v2)
    ∧ (∀ (p : (ℚ × ℚ × ℚ) × (ℚ × ℚ × ℚ)) (k : Int) (v1 v2 : ℚ)
        (w : (ℚ × ℚ × ℚ) × (ℚ × ℚ × ℚ)),
        assocPose p k v1 = some w →
        assocPose w k v2 = assocPose p k v2)
    ∧ (∀ (r : List (String × ℚ)) (k : String) (v1 v2 : ℚ),
        assocRecord (assocRecord r k v1) k v2 = assocRecord r k v2) := by
  refine ⟨?_, ?_, ?_, ?_⟩
  · intro tup k v1 v2 y h
    exact listAssign_absorb tup k v1 v2 y h
  · intro v k v1 v2 w h
    unfold assocVec at h ⊢
    cases hy : listAssign [v.1, v.2.1, v.2.2] k v1 with
    | none => rw [hy] at h; cases h
    | some y =>
        rw [hy] at h
        simp only [Option.some_bind] at h
        have hyw : y = [w.1, w.2.1, w.2.2] := vecOfList_inv y w h
        rw [show [w.1, w.2.1, w.2.2] = y from hyw.symm,
          listAssign_absorb _ k v1 v2 y hy]
  · intro p k v1 v2 w h
    unfold assocPose at h ⊢
    cases hy : listAssign (poseToList p) k v1 with
    | none => rw [hy] at h; cases h
    | some y =>
        rw [hy] at h
        simp only [Option.some_bind] at h
        have hyw : y = poseToList w := poseOfList_inv y w h
        rw [show poseToList w = y from hyw.symm,
          listAssign_absorb _ k v1 v2 y hy]
  · intro r k v1 v2
    rfl

/-- C9 witness: a 3-tuple with key 1, a vector with negative key `-1`, a
pose with key 5, a record. -/
theorem C9_assoc_witness :
    assocTuple [1, 2, 3] 1 (5 : ℚ) = some [1, 5, 3]
    ∧ assocTuple [1, 5, 3] 1 (7 : ℚ) = assocTuple [1, 2, 3] 1 7
    ∧ assocVec (1, 2, 3) (-1) (5 : ℚ) = some (1, 2, 5)
    ∧ assocVec (1, 2, 5) (-1) (7 : ℚ) = assocVec (1, 2, 3) (-1) 7
    ∧ assocPose ((1, 2, 3), (4, 5, 6)) 5 (9 : ℚ) = some ((1, 2, 3), (4, 5, 9))
    ∧ assocPose ((1, 2, 3), (4, 5, 9)) 5 (8 : ℚ)
        = assocPose ((1, 2, 3), (4, 5, 6)) 5 8
    ∧ assocRecord (assocRecord [("a", (1 : ℚ))] "a" 5) "a" 7
        = assocRecord [("a", (1 : ℚ))] "a" 7 := by
  have h1 : assocTuple [1, 2, 3] 1 (5 : ℚ) = some [1, 5, 3] := by decide
  have h2 : assocVec (1, 2, 3) (-1) (5 : ℚ) = some (1, 2, 5) := by decide
  have h3 : assocPose ((1, 2, 3), (4, 5, 6)) 5 (9 : ℚ) = some ((1, 2, 3), (4, 5, 9)) := by
    decide
  exact ⟨h1,
    (C9_assoc_leaves_input_and_absorbs).1 [1, 2, 3] 1 5 7 [1, 5, 3] h1,
    h2,
    (C9_assoc_leaves_input_and_absorbs).2.1 (1, 2, 3) (-1) 5 7 (1, 2, 5) h2,
    h3,
    (C9_assoc_leaves_input_and_absorbs).2.2.1 ((1, 2, 3), (4, 5, 6)) 5 9 8
      ((1, 2, 3), (4, 5, 9)) h3,
    (C9_assoc_leaves_input_and_absorbs).2.2.2 [("a", (1 : ℚ))] "a" 5 7⟩

/-! ## C1: the drain of the action queue -/

/-- C1: a concrete drain evaluated against `ActionQueue._run`.  Group `r1`
holds one motion and one attached action `a1` (path parameter 1), group
`r2` holds one attached action `a2` and no motion; the planned stream for
`r1` yields one motion state at path parameter 2.  The code executes `a1`
TWICE — once immediately inside the planning loop (the mis-indented
`for action_container in container.actions` block sits inside the
`if len(container.motions) > 0` branch) and once via the trigger iterator —
and never executes `a2`, although the loop's own comment ("When the motion
trajectory is empty, execute the actions") and the sibling implementation
in action_queue.py (which has the `else:` branch) say `a2` should run once
and `a1` only via the trigger.  This refutes the claim that after the
drain every attached action has executed exactly once and that actions in
motion-less buffers execute in order. -/
theorem C1_drain_runs_actions_twice_or_never :
    drainTraces
        [("r1", [QItem.motion (0 : Nat), QItem.act 1 "a1"]),
          ("r2", [QItem.act (0 : ℚ) "a2"])]
        (fun _ => [2])
      = (["a1"], [["a1"]])
    ∧ List.count "a1" (["a1"] ++ List.flatten [["a1"]]) = 2
    ∧ List.count "a2" (["a1"] ++ List.flatten [["a1"]]) = 0 := by
  refine ⟨?_, by decide, by decide⟩
  decide

/-! ## C2: device effects between sync barriers -/

/-- C2 counterexample: a `write` executed while the action queue is empty
(the state of any program prefix before its first `move`) takes effect on
the device immediately — no sync barrier and no program end has occurred,
yet the observable device state changed.  This refutes the claim that
every device-writing effect takes effect only at a sync barrier or at
program end. -/
theorem C2_write_runs_immediately_when_queue_empty :
    (writeCall (⟨[], []⟩ : WriteEnv Unit Nat) "dev" "k" 7 "r").deviceWrites
      = [⟨"dev", "k", 7⟩]
    ∧ ([⟨"dev", "k", 7⟩] : List (WriteAction Nat)) ≠ [] := by
  constructor
  · rfl
  · intro h
    cases h

/-- C2 (amended): a `write` issued while the action queue is *non-empty*
is deferred — the observable device state is unchanged and the
`WriteAction` is attached to the active robot's buffer, to take effect
during the sync drain. -/
theorem C2_write_deferred_when_queue_nonempty {M V : Type} (env : WriteEnv M V)
    (dev key : String) (v : V) (robot : String)
    (h : isEmptyQueue env.record = false) :
    (writeCall env dev key v robot).deviceWrites = env.deviceWrites
    ∧ (writeCall env dev key v robot).record
        = attachAction env.record ⟨dev, key, v⟩ robot := by
  unfold writeCall
  rw [h]
  exact ⟨rfl, rfl⟩

/-- C2 witness: with one motion buffered, the write leaves the device
state untouched and lands in the buffer. -/
theorem C2_write_deferred_witness :
    isEmptyQueue ([("r", [QItem.motion ()])] :
        List (String × List (QItem Unit (WriteAction Nat)))) = false
    ∧ ((writeCall (⟨[("r", [QItem.motion ()])], []⟩ : WriteEnv Unit Nat)
          "dev" "k" 7 "r").deviceWrites = []
      ∧ (writeCall (⟨[("r", [QItem.motion ()])], []⟩ : WriteEnv Unit Nat)
          "dev" "k" 7 "r").record
        = attachAction [("r", [QItem.motion ()])] ⟨"dev", "k", 7⟩ "r") :=
  ⟨rfl, C2_write_deferred_when_queue_nonempty ⟨[("r", [QItem.motion ()])], []⟩
    "dev" "k" 7 "r" rfl⟩

/-! ## C3: the `with` modifier context -/

/-- C3 counterexample: with two tracing modifiers, a normal exit runs the
undo closures in the SAME order they were applied (`undo 0` before
`undo 1`), not in reverse; and when the suite body raises, no undo closure
runs at all (the trace after the error contains no undo event).  This
refutes both the reverse-order clause and the exceptional-exit clause of
the claim. -/
theorem C3_undo_order_and_exception_counterexample :
    contextCall [tmod 0, tmod 1] okBody []
      = ([Ev.applyM 0, Ev.applyM 1, Ev.bodyRun, Ev.undoM 0, Ev.undoM 1], none)
    ∧ ([Ev.applyM 0, Ev.applyM 1, Ev.bodyRun, Ev.undoM 0, Ev.undoM 1] : List Ev)
        ≠ [Ev.applyM 0, Ev.applyM 1, Ev.bodyRun, Ev.undoM 1, Ev.undoM 0]
    ∧ contextCall [tmod 0, tmod 1] errBody []
      = ([Ev.applyM 0, Ev.applyM 1, Ev.bodyRun], some ())
    ∧ Ev.undoM 0 ∉ [Ev.applyM 0, Ev.applyM 1, Ev.bodyRun]
    ∧ Ev.undoM 1 ∉ [Ev.applyM 0, Ev.applyM 1, Ev.bodyRun] := by
  decide

theorem modifierCall_tmods (ids : List Nat) (s : List Ev) :
    modifierCall (ids.map tmod) s
      = (s ++ ids.map Ev.applyM, ids.map fun i => fun st => st ++ [Ev.undoM i]) := by
  induction ids generalizing s with
  | nil => simp [modifierCall]
  | cons i ids ih => simp [modifierCall, tmod, ih]

theorem onExit_tmods (ids : List Nat) (s : List Ev) :
    onExit (ids.map fun i => fun st => st ++ [Ev.undoM i]) s
      = s ++ ids.map Ev.undoM := by
  induction ids generalizing s with
  | nil => simp [onExit]
  | cons i ids ih =>
      simp only [List.map_cons, onExit, List.foldl_cons]
      rw [show List.foldl (fun st f => f st) (s ++ [Ev.undoM i])
            (ids.map fun i => fun st => st ++ [Ev.undoM i])
          = onExit (ids.map fun i => fun st => st ++ [Ev.undoM i]) (s ++ [Ev.undoM i])
          from rfl]
      simp [ih]

/-- C3 (amended): each modifier runs and returns an undo closure; the
modifiers are applied in order, and on a *normal* exit of the suite the
undo closures are invoked in that same (application) order; on an
exceptional exit of the suite the undo closures are not invoked — the
error propagates with the state the body left behind. -/
theorem C3_modifiers_applied_in_order_undone_in_same_order_normal_exit_only
    (ids : List Nat) (s : List Ev) :
    contextCall (ids.map tmod) okBody s
      = (s ++ ids.map Ev.applyM ++ [Ev.bodyRun] ++ ids.map Ev.undoM, none)
    ∧ contextCall (ids.map tmod) errBody s
      = (s ++ ids.map Ev.applyM ++ [Ev.bodyRun], some ())
    ∧ (∀ (S E : Type) (mods : List (ModifierFn S)) (body : BodyFn S E) (t : S) (e : E),
        (body (modifierCall mods t).1).2 = some e →
        contextCall mods body t = ((body (modifierCall mods t).1).1, some e)) := by
  refine ⟨?_, ?_, ?_⟩
  · simp [contextCall, modifierCall_tmods, okBody, onExit_tmods, List.append_assoc]
  · simp [contextCall, modifierCall_tmods, errBody]
  · intro S E mods body t e h
    simp [contextCall, h]

/-! ## C4: what the sync block catches -/

/-- A do-body raising wandelscript's own `MotionError` (what
`ActionQueue.push` raises on tool conflicts and queue overflow). -/
def bodyRaisesWsMotion : BodyFn (List String) ErrKind :=
  fun s => (s ++ ["body"], some .wsMotionErr)

/-- A drain that succeeds. -/
def drainNoop : BodyFn (List String) ErrKind := fun s => (s, none)

/-- A tracing except-handler. -/
def handlerTrace : BodyFn (List String) ErrKind := fun s => (s ++ ["handler"], none)

/-- C4 counterexample: a `sync do:/except:` block whose body raises
wandelscript's `MotionError` (e.g. a queue overflow from a `move`).  The
except clause at metamodel.py line 377 tests against nova's
`RobotMotionError` and wandelscript's `UserError`; wandelscript's
`MotionError` subclasses neither (its bases are `ProgramRuntimeError →
ProgramError → Exception`), so the error propagates uncaught and the
except body never runs.  This refutes the claim that the block catches
`MotionError` and runs the except body. -/
theorem C4_ws_motion_error_not_caught_counterexample :
    syncContextCall (some bodyRaisesWsMotion) drainNoop none (some handlerTrace) []
      = (["body"], some ErrKind.wsMotionErr)
    ∧ (some ErrKind.wsMotionErr ≠ (none : Option ErrKind))
    ∧ "handler" ∉ ["body"] := by
  decide

/-- C4 (amended): a `sync do:/except:` block catches exactly nova's
`RobotMotionError` (planner/drain failures) and wandelscript's
`UserError`; when such an error is raised with an except body present, the
except body runs and the error is swallowed; the optional sync body runs
only after the drain succeeds; every other error — including
wandelscript's own `MotionError` — propagates uncaught. -/
theorem C4_sync_block_catch_semantics {S : Type}
    (b drain h sb : BodyFn S ErrKind) (s : S) :
    (caughtBySync .robotMotionErr = true ∧ caughtBySync .userErr = true
      ∧ caughtBySync .wsMotionErr = false ∧ caughtBySync .otherErr = false)
    ∧ ((b s).2 = none → (drain (b s).1).2 = none →
        syncContextCall (some b) drain (some sb) (some h) s = sb (drain (b s).1).1)
    ∧ (∀ e : ErrKind, (b s).2 = none → (drain (b s).1).2 = some e →
        caughtBySync e = true →
        syncContextCall (some b) drain (some sb) (some h) s = h (drain (b s).1).1)
    ∧ (∀ e : ErrKind, (b s).2 = some e → caughtBySync e = true →
        syncContextCall (some b) drain (some sb) (some h) s = h (b s).1)
    ∧ (∀ e : ErrKind, (b s).2 = some e → caughtBySync e = false →
        syncContextCall (some b) drain (some sb) (some h) s = ((b s).1, some e))
    ∧ (∀ e : ErrKind, (b s).2 = none → (drain (b s).1).2 = some e →
        caughtBySync e = false →
        syncContextCall (some b) drain (some sb) (some h) s
          = ((drain (b s).1).1, some e)) := by
  refine ⟨⟨rfl, rfl, rfl, rfl⟩, ?_, ?_, ?_, ?_, ?_⟩
  · intro h1 h2
    simp [syncContextCall, h1, h2]
  · intro e h1 h2 h3
    simp [syncContextCall, h1, h2, syncHandle, h3]
  · intro e h1 h2
    simp [syncContextCall, h1, syncHandle, h2]
  · intro e h1 h2
    simp [syncContextCall, h1, syncHandle, h2]
  · intro e h1 h2 h3
    simp [syncContextCall, h1, h2, syncHandle, h3]

/-! ## C5: invariants of `ActionQueue.push` -/

theorem record0_get_self {W : Type} (d : List (String × W)) (k : String) (w : W) :
    dictGet (if dictHasKey d k then d else dictSet d k w) k
      = some ((dictGet d k).getD w) := by
  by_cases hk : dictHasKey d k
  · rw [if_pos hk]
    unfold dictHasKey at hk
    cases hg : dictGet d k with
    | none => rw [hg] at hk; simp at hk
    | some x => simp [hg]
  · rw [if_neg hk, dictGet_dictSet_self]
    unfold dictHasKey at hk
    cases hg : dictGet d k with
    | none => simp
    | some x => rw [hg] at hk; simp at hk

theorem record0_get_other {W : Type} (d : List (String × W)) (k g : String) (w : W)
    (hg : g ≠ k) :
    dictGet (if dictHasKey d k then d else dictSet d k w) g = dictGet d g := by
  by_cases hk : dictHasKey d k
  · rw [if_pos hk]
  · rw [if_neg hk, dictGet_dictSet_other _ _ _ _ hg]

/-- The state after one successful iteration of the per-motion loop of
`push`: the motion appended to the group's buffer, `_last_motions`
updated. -/
def pushStep {M A : Type} (st : QueueState M A) (mg : String) (m : M) :
    QueueState M A :=
  { st with
    record := dictSet
      (if dictHasKey st.record mg then st.record else dictSet st.record mg []) mg
      (bufferOf st mg ++ [QItem.motion m]),
    lastMotions := dictSet st.lastMotions mg m }

theorem bufferOf_pushStep_self {M A : Type} (st : QueueState M A) (mg : String) (m : M) :
    bufferOf (pushStep st mg m) mg = bufferOf st mg ++ [QItem.motion m] := by
  unfold pushStep
  unfold bufferOf
  simp [dictGet_dictSet_self]

theorem bufferOf_pushStep_other {M A : Type} (st : QueueState M A) (mg g : String)
    (m : M) (hg : g ≠ mg) : bufferOf (pushStep st mg m) g = bufferOf st g := by
  unfold bufferOf pushStep
  simp only
  rw [dictGet_dictSet_other _ _ _ _ hg, record0_get_other _ _ _ _ hg]

theorem tcp_pushStep {M A : Type} (st : QueueState M A) (mg : String) (m : M) :
    (pushStep st mg m).tcp = st.tcp := rfl

theorem bufferOf_record0 {M A : Type} (st : QueueState M A) (mg g : String) :
    bufferOf
      ({ st with record :=
          if dictHasKey st.record mg then st.record else dictSet st.record mg [] } :
        QueueState M A) g = bufferOf st g := by
  by_cases hg : g = mg
  · subst hg
    unfold bufferOf
    simp only
    rw [record0_get_self]
    simp
  · unfold bufferOf
    simp only
    rw [record0_get_other _ _ _ _ hg]

theorem pushLoop_cons_lt {M A : Type} (mg : String) (st : QueueState M A) (m : M)
    (ms : List M) (hlt : (bufferOf st mg).length < MOTION_LIMIT_IN) :
    pushLoop mg st (m :: ms) = pushLoop mg (pushStep st mg m) ms := by
  have hnot : ¬ MOTION_LIMIT_IN ≤
      ((dictGet (if dictHasKey st.record mg then st.record
        else dictSet st.record mg []) mg).getD []).length := by
    rw [record0_get_self]
    simpa [bufferOf] using Nat.not_le.mpr hlt
  simp only [pushLoop]
  rw [if_neg hnot]
  unfold pushStep
  have hitems : ((dictGet (if dictHasKey st.record mg then st.record
      else dictSet st.record mg []) mg).getD []) = bufferOf st mg := by
    rw [record0_get_self]
    rfl
  rw [hitems]

theorem pushLoop_cons_full {M A : Type} (mg : String) (st : QueueState M A) (m : M)
    (ms : List M) (hge : MOTION_LIMIT_IN ≤ (bufferOf st mg).length) :
    pushLoop mg st (m :: ms)
      = ({ st with record :=
            if dictHasKey st.record mg then st.record else dictSet st.record mg [] },
          some PushErr.limitExceeded) := by
  have hcond : MOTION_LIMIT_IN ≤
      ((dictGet (if dictHasKey st.record mg then st.record
        else dictSet st.record mg []) mg).getD []).length := by
    rw [record0_get_self]
    simpa [bufferOf] using hge
  simp only [pushLoop]
  rw [if_pos hcond]

theorem pushLoop_ok {M A : Type} (mg : String) (ms : List M) :
    ∀ st : QueueState M A,
      (bufferOf st mg).length + ms.length ≤ MOTION_LIMIT_IN →
      ∃ st2, pushLoop mg st ms = (st2, none)
        ∧ bufferOf st2 mg = bufferOf st mg ++ ms.map QItem.motion
        ∧ (∀ g, g ≠ mg → bufferOf st2 g = bufferOf st g)
        ∧ st2.tcp = st.tcp := by
  induction ms with
  | nil =>
      intro st _
      exact ⟨st, rfl, by simp, fun g _ => rfl, rfl⟩
  | cons m ms ih =>
      intro st h
      have hlt : (bufferOf st mg).length < MOTION_LIMIT_IN := by
        simp only [List.length_cons] at h
        omega
      rw [pushLoop_cons_lt mg st m ms hlt]
      have hlen : (bufferOf (pushStep st mg m) mg).length + ms.length
          ≤ MOTION_LIMIT_IN := by
        rw [bufferOf_pushStep_self]
        simp only [List.length_append, List.length_cons, List.length_nil] at h ⊢
        omega
      obtain ⟨st2, heq, hself, hother, htcp⟩ := ih (pushStep st mg m) hlen
      refine ⟨st2, heq, ?_, ?_, ?_⟩
      · rw [hself, bufferOf_pushStep_self]
        simp
      · intro g hg
        rw [hother g hg, bufferOf_pushStep_other _ _ _ _ hg]
      · rw [htcp, tcp_pushStep]

theorem pushLoop_limit {M A : Type} (mg : String) (ms : List M) :
    ∀ st : QueueState M A,
      (∀ g, (bufferOf st g).length ≤ MOTION_LIMIT_IN) →
      ∀ g, (bufferOf (pushLoop mg st ms).1 g).length ≤ MOTION_LIMIT_IN := by
  induction ms with
  | nil => intro st h g; exact h g
  | cons m ms ih =>
      intro st h g
      by_cases hfull : MOTION_LIMIT_IN ≤ (bufferOf st mg).length
      · rw [pushLoop_cons_full mg st m ms hfull]
        show (bufferOf
            ({ st with record :=
              if dictHasKey st.record mg then st.record
              else dictSet st.record mg [] } : QueueState M A) g).length
          ≤ MOTION_LIMIT_IN
        rw [bufferOf_record0]
        exact h g
      · push_neg at hfull
        rw [pushLoop_cons_lt mg st m ms hfull]
        apply ih
        intro g2
        by_cases hg2 : g2 = mg
        · subst hg2
          rw [bufferOf_pushStep_self]
          simp only [List.length_append, List.length_cons, List.length_nil]
          omega
        · rw [bufferOf_pushStep_other _ _ _ _ hg2]
          exact h g2

/-- The tool check of `push` succeeds (no `MotionError` from the tcp
logic): either the group has no fixed tool yet, or the given tool does not
conflict with the fixed one. -/
def pushToolOk {M A : Type} (st : QueueState M A) (tool : Option String)
    (mg : String) : Bool :=
  if dictHasKey st.tcp mg then !(toolConflict (dictGet st.tcp mg) tool) else true

/-- C5 (amended): invariants of `ActionQueue.push`.  (1) Once a tool is
fixed for a group, pushing with a different non-empty tool raises
`MotionError` and leaves the whole state unchanged.  (2) A successful push
appends the motions to the group's buffer in insertion order and leaves
every other group's buffer unchanged.  (3) No push ever makes any buffer
exceed `MOTION_LIMIT_IN`.  (4) A single-motion push against a full buffer
raises `MotionError` and leaves every buffer unchanged — but (see the
counterexample) a *multi-motion* push that overflows may append a prefix
of its motions before raising, so the buffer is not always unchanged. -/
theorem C5_push_buffer_invariants {M A : Type} (st : QueueState M A) (mg : String) :
    (∀ (cur t : String) (motions : List M),
        dictGet st.tcp mg = some cur → t ≠ "" → cur ≠ t →
        push st motions (some t) mg = (st, some PushErr.toolChanged))
    ∧ (∀ (motions : List M) (tool : Option String),
        pushToolOk st tool mg = true →
        (bufferOf st mg).length + motions.length ≤ MOTION_LIMIT_IN →
        ∃ st2, push st motions tool mg = (st2, none)
          ∧ bufferOf st2 mg = bufferOf st mg ++ motions.map QItem.motion
          ∧ (∀ g, g ≠ mg → bufferOf st2 g = bufferOf st g))
    ∧ (∀ (motions : List M) (tool : Option String),
        (∀ g, (bufferOf st g).length ≤ MOTION_LIMIT_IN) →
        ∀ g, (bufferOf (push st motions tool mg).1 g).length ≤ MOTION_LIMIT_IN)
    ∧ (∀ (m : M) (tool : Option String),
        pushToolOk st tool mg = true →
        (bufferOf st mg).length = MOTION_LIMIT_IN →
        ∃ st2, push st [m] tool mg = (st2, some PushErr.limitExceeded)
          ∧ ∀ g, bufferOf st2 g = bufferOf st g) := by
  have hkey_of_get : ∀ cur : String, dictGet st.tcp mg = some cur →
      dictHasKey st.tcp mg = true := by
    intro cur hget
    unfold dictHasKey
    rw [hget]
    rfl
  refine ⟨?_, ?_, ?_, ?_⟩
  · intro cur t motions hget ht hcur
    have hk := hkey_of_get cur hget
    have hconf : toolConflict (dictGet st.tcp mg) (some t) = true := by
      unfold toolConflict
      rw [hget]
      simp [ht, hcur]
    simp [push, hk, hconf]
  · intro motions tool hok hlen
    unfold push
    by_cases hk : dictHasKey st.tcp mg
    · have hconf : toolConflict (dictGet st.tcp mg) tool = false := by
        unfold pushToolOk at hok
        rw [if_pos hk] at hok
        simpa using hok
      rw [if_pos hk, hconf]
      simp only [Bool.false_eq_true, if_false]
      obtain ⟨st2, heq, hself, hother, _⟩ := pushLoop_ok mg motions st hlen
      exact ⟨st2, heq, hself, hother⟩
    · rw [if_neg hk]
      cases tool with
      | none =>
          obtain ⟨st2, heq, hself, hother, _⟩ := pushLoop_ok mg motions st hlen
          exact ⟨st2, heq, hself, hother⟩
      | some t =>
          obtain ⟨st2, heq, hself, hother, _⟩ :=
            pushLoop_ok (M := M) (A := A) mg motions
              { st with tcp := dictSet st.tcp mg t } hlen
          exact ⟨st2, heq, hself, hother⟩
  · intro motions tool h g
    unfold push
    by_cases hk : dictHasKey st.tcp mg
    · rw [if_pos hk]
      by_cases hconf : toolConflict (dictGet st.tcp mg) tool
      · rw [if_pos hconf]
        exact h g
      · rw [if_neg hconf]
        exact pushLoop_limit mg motions st h g
    · rw [if_neg hk]
      cases tool with
      | none => exact pushLoop_limit mg motions st h g
      | some t => exact pushLoop_limit mg motions { st with tcp := dictSet st.tcp mg t } h g
  · intro m tool hok hfull
    have hge : MOTION_LIMIT_IN ≤ (bufferOf st mg).length := hfull.ge
    unfold push
    by_cases hk : dictHasKey st.tcp mg
    · have hconf : toolConflict (dictGet st.tcp mg) tool = false := by
        unfold pushToolOk at hok
        rw [if_pos hk] at hok
        simpa using hok
      rw [if_pos hk, hconf]
      rw [pushLoop_cons_full mg st m [] hge]
      simp only [Bool.false_eq_true, if_false]
      exact ⟨_, rfl, fun g => bufferOf_record0 st mg g⟩
    · rw [if_neg hk]
      cases tool with
      | none =>
          rw [pushLoop_cons_full mg st m [] hge]
          exact ⟨_, rfl, fun g => bufferOf_record0 st mg g⟩
      | some t =>
          have hres := pushLoop_cons_full mg
            { st with tcp := dictSet st.tcp mg t } m [] hge
          exact ⟨_, hres, fun g =>
            bufferOf_record0 { st with tcp := dictSet st.tcp mg t } mg g⟩

/-- C5 witness: a fixed tool `t1` for robot `r`; pushing with tool `t2`
raises `MotionError` and leaves the state unchanged. -/
theorem C5_push_buffer_invariants_witness :
    dictGet ([("r", "t1")] : List (String × String)) "r" = some "t1"
    ∧ ("t2" : String) ≠ ""
    ∧ ("t1" : String) ≠ "t2"
    ∧ push (⟨[("r", "t1")], [], []⟩ : QueueState Nat Unit) [5] (some "t2") "r"
        = (⟨[("r", "t1")], [], []⟩, some PushErr.toolChanged) :=
  ⟨by decide, by decide, by decide,
    (C5_push_buffer_invariants (⟨[("r", "t1")], [], []⟩ : QueueState Nat Unit) "r").1
      "t1" "t2" [5] (by decide) (by decide) (by decide)⟩

/-- For a robot with no fixed tool and no tool argument, `push` goes
straight to the per-motion loop. -/
theorem push_no_fixed_tool {M A : Type} (st : QueueState M A) (motions : List M)
    (mg : String) (hk : dictHasKey st.tcp mg = false) :
    push st motions none mg = pushLoop mg st motions := by
  unfold push
  rw [hk]
  rfl

/-- The queue state of the C5 counterexample: robot `r` already has 9999
buffered motions. -/
def st9999 : QueueState Nat Unit :=
  ⟨[], [("r", List.replicate 9999 (QItem.motion 0))], []⟩

/-- C5 counterexample: pushing a 2-motion tuple onto a buffer holding 9999
motions raises `MotionError` (the limit is 10000) — but the buffer is NOT
left unchanged: the first motion of the tuple was already appended when
the second raised, so the buffer grew from 9999 to 10000 entries.  This
refutes the claim that a push that would exceed `MOTION_LIMIT_IN` raises
`MotionError` *leaving the buffer unchanged*. -/
theorem C5_queue_overflow_mutates_buffer_counterexample :
    ∃ st2 : QueueState Nat Unit,
      push st9999 [1, 2] none "r" = (st2, some PushErr.limitExceeded)
      ∧ (bufferOf st2 "r").length = 10000
      ∧ (bufferOf st9999 "r").length = 9999
      ∧ bufferOf st2 "r" ≠ bufferOf st9999 "r" := by
  have hsingle : ∀ (v : List (QItem Nat Unit)), dictGet [("r", v)] "r" = some v := by
    intro v
    rw [dictGet]
    rw [if_pos rfl]
  have hbuf : bufferOf st9999 "r" = List.replicate 9999 (QItem.motion 0) := by
    show (dictGet [("r", List.replicate 9999 (QItem.motion 0))] "r").getD [] = _
    rw [hsingle]
    rfl
  have hpush1 : push st9999 [1, 2] none "r" = pushLoop "r" st9999 [1, 2] :=
    push_no_fixed_tool st9999 [1, 2] "r" rfl
  have hlt : (bufferOf st9999 "r").length < MOTION_LIMIT_IN := by
    rw [hbuf, List.length_replicate]
    decide
  have hfull : MOTION_LIMIT_IN ≤ (bufferOf (pushStep st9999 "r" 1) "r").length := by
    rw [bufferOf_pushStep_self, hbuf, List.length_append, List.length_replicate]
    decide
  rw [hpush1, pushLoop_cons_lt _ _ _ _ hlt, pushLoop_cons_full _ _ _ _ hfull]
  refine ⟨_, rfl, ?_, ?_, ?_⟩
  · rw [bufferOf_record0, bufferOf_pushStep_self, hbuf, List.length_append,
      List.length_replicate]
    rfl
  · rw [hbuf, List.length_replicate]
  · rw [bufferOf_record0, bufferOf_pushStep_self, hbuf]
    intro hcontra
    have hlencontr := congrArg List.length hcontra
    rw [List.length_append, List.length_replicate] at hlencontr
    simp at hlencontr

/-- C4 witness: a concrete run for each branch — a `UserError` from the
body is caught and handled; the success path runs the sync body after the
drain. -/
theorem C4_sync_block_catch_semantics_witness :
    ((fun s => (s ++ ["body"], some ErrKind.userErr)) ([] : List String)).2
        = some ErrKind.userErr
    ∧ caughtBySync ErrKind.userErr = true
    ∧ syncContextCall (some fun s => (s ++ ["body"], some ErrKind.userErr))
        drainNoop (some fun s => (s ++ ["sync"], none)) (some handlerTrace) []
      = handlerTrace (([] : List String) ++ ["body"]) := by
  refine ⟨rfl, rfl, ?_⟩
  exact (C4_sync_block_catch_semantics
    (fun s => (s ++ ["body"], some ErrKind.userErr)) drainNoop handlerTrace
    (fun s => (s ++ ["sync"], none)) []).2.2.2.1 ErrKind.userErr rfl rfl

/-! ## The value serializer (`serializer.py`, with the live `types.py`)

`dumps` encodes a value into the pydantic `Element` model and serializes
it as JSON; `loads` parses the JSON, validates it back into `Element` and
`decode`s it.  We collapse the pydantic-model layer and model the JSON
wire format as a tree (`Json`); Python's `json.dumps`/`json.loads` on
that tree is a bijection we do not re-model.  Finite Python floats are
modelled as rationals (their decimal wire form round-trips exactly);
`int` and `float` stay distinct on the wire (`5` vs `5.0`), as pydantic
serializes them.  Python `bool` dispatches to the `int` registration of
`encode`/`decode` (bool is an int subclass) and stays a JSON bool.

The wire shapes follow the pydantic models of serializer.py:
`Vector3d` → an object with field `vector3d` holding 3 numbers,
`Pose` → field `pose` holding 6 numbers,
`Array` → fields `type: "array"` and `array`,
`Record` → fields `type: "record"` and `record`.
Pydantic matches the union member by these (disjoint) field shapes; we
restrict the embedded validator to the exact shapes the encoder emits. -/

/-- A Wandelscript value of the serializable shapes of §6.1. -/
inductive WsValue where
  | wint : Int → WsValue
  | wfloat : ℚ → WsValue
  | wbool : Bool → WsValue
  | wstr : String → WsValue
  | wvec : ℚ → ℚ → ℚ → WsValue
  | wpose : ℚ → ℚ → ℚ → ℚ → ℚ → ℚ → WsValue
  | wtup : List WsValue → WsValue
  | wrec : List (String × WsValue) → WsValue

/-- A JSON document. -/
inductive Json where
  | jint : Int → Json
  | jfloat : ℚ → Json
  | jbool : Bool → Json
  | jstr : String → Json
  | jarr : List Json → Json
  | jobj : List (String × Json) → Json

mutual

/-- `encode` + `model_dump_json` of serializer.py, collapsed: the JSON
wire form of a value. -/
def toJson : WsValue → Json
  | .wint n => .jint n
  | .wfloat q => .jfloat q
  | .wbool b => .jbool b
  | .wstr s => .jstr s
  | .wvec x y z => .jobj [("vector3d", .jarr [.jfloat x, .jfloat y, .jfloat z])]
  | .wpose a b c d e f =>
      .jobj [("pose", .jarr [.jfloat a, .jfloat b, .jfloat c,
        .jfloat d, .jfloat e, .jfloat f])]
  | .wtup l => .jobj [("type", .jstr "array"), ("array", .jarr (toJsonList l))]
  | .wrec r => .jobj [("type", .jstr "record"), ("record", .jobj (toJsonPairs r))]

def toJsonList : List WsValue → List Json
  | [] => []
  | v :: vs => toJson v :: toJsonList vs

def toJsonPairs : List (String × WsValue) → List (String × Json)
  | [] => []
  | (k, v) :: r => (k, toJson v) :: toJsonPairs r

end

/-- Pydantic's numeric coercion when validating a float field: a JSON int
or float becomes a float. -/
def asFloat : Json → Option ℚ
  | .jfloat q => some q
  | .jint n => some (n : ℚ)
  | _ => none

mutual

/-- `json.loads` + `Element` validation + `decode` of serializer.py,
collapsed.  The record branch is the decoder registered for the `Record`
model: it decodes every child and then calls `ws_types.Record(data=...)` —
whose `data` keyword the live `types.py` `Record` (field name `record`,
pydantic `extra='ignore'`) silently drops, so the decoded record is
always empty. -/
def fromJson : Json → Except String WsValue
  | .jint n => .ok (.wint n)
  | .jfloat q => .ok (.wfloat q)
  | .jbool b => .ok (.wbool b)
  | .jstr s => .ok (.wstr s)
  | .jarr l => (fromJsonList l).map .wtup
  | .jobj [("vector3d", .jarr [x, y, z])] =>
      match asFloat x, asFloat y, asFloat z with
      | some a, some b, some c => .ok (.wvec a b c)
      | _, _, _ => .error "validation error: Vector3d"
  | .jobj [("pose", .jarr [p1, p2, p3, p4, p5, p6])] =>
      match asFloat p1, asFloat p2, asFloat p3, asFloat p4, asFloat p5, asFloat p6 with
      | some a, some b, some c, some d, some e, some f => .ok (.wpose a b c d e f)
      | _, _, _, _, _, _ => .error "validation error: Pose"
  | .jobj [("type", .jstr "array"), ("array", .jarr l)] =>
      (fromJsonList l).map .wtup
  | .jobj [("type", .jstr "record"), ("record", .jobj r)] =>
      (fromJsonRecordChildren r).map fun _ => .wrec []
  | .jobj _ => .error "validation error: Element"

def fromJsonList : List Json → Except String (List WsValue)
  | [] => .ok []
  | j :: js =>
      match fromJson j, fromJsonList js with
      | .ok v, .ok vs => .ok (v :: vs)
      | .error e, _ => .error e
      | _, .error e => .error e

/-- Decode the children of a record object (they are validated and
decoded), and discard them — `Record(data={k: decode(v) ...})` ignores
the `data` keyword. -/
def fromJsonRecordChildren : List (String × Json) → Except String Unit
  | [] => .ok ()
  | (_, j) :: r =>
      match fromJson j with
      | .ok _ => fromJsonRecordChildren r
      | .error e => .error e

end

/-- `dumps` (serializer.py lines 60-63): wrap in the `Element` model. -/
def dumpsJ (v : WsValue) : Json := .jobj [("value", toJson v)]

/-- `loads` (serializer.py lines 66-70): parse, validate as `Element`,
decode. -/
def loadsJ : Json → Except String WsValue
  | .jobj [("value", jv)] => fromJson jv
  | _ => .error "validation error: Element"

/-- C8: the serialization round trip evaluated on concrete values.
Numbers, strings, booleans, `Vector3d`, `Pose` and tuples round-trip — but
a non-empty record does NOT: `loads(dumps({'a': 1}))` returns the *empty*
record, because the decoder constructs `ws_types.Record(data=...)` while
the live `types.py` `Record` model's field is named `record` (pydantic
ignores the unknown `data` keyword and takes the field default).  The
module's own doctests (serializer.py lines 44-51, showing
`decode({...}) → Record(data={'id': 'id1', ...})` with contents) and the
claim `loads(dumps(v)) == v` say the contents must survive, so the code
contradicts its own documentation. -/
theorem C8_record_round_trip_fails :
    loadsJ (dumpsJ (.wrec [("a", .wint 1)])) = .ok (.wrec [])
    ∧ (WsValue.wrec [] ≠ WsValue.wrec [("a", .wint 1)])
    ∧ loadsJ (dumpsJ (.wint 5)) = .ok (.wint 5)
    ∧ loadsJ (dumpsJ (.wfloat (5 : ℚ))) = .ok (.wfloat 5)
    ∧ loadsJ (dumpsJ (.wbool true)) = .ok (.wbool true)
    ∧ loadsJ (dumpsJ (.wstr "hi")) = .ok (.wstr "hi")
    ∧ loadsJ (dumpsJ (.wvec 1 2 3)) = .ok (.wvec 1 2 3)
    ∧ loadsJ (dumpsJ (.wpose 1 2 3 4 5 6)) = .ok (.wpose 1 2 3 4 5 6)
    ∧ loadsJ (dumpsJ (.wtup [.wint 1, .wstr "x"])) = .ok (.wtup [.wint 1, .wstr "x"]) := by
  refine ⟨?_, ?_, ?_, ?_, ?_, ?_, ?_, ?_, ?_⟩
  · simp [loadsJ, dumpsJ, toJson, toJsonPairs, fromJson, fromJsonRecordChildren,
      Except.map]
  · intro h
    injection h with h2
    cases h2
  · rfl
  · rfl
  · rfl
  · rfl
  · simp [loadsJ, dumpsJ, toJson, fromJson, asFloat]
  · simp [loadsJ, dumpsJ, toJson, fromJson, asFloat]
  · simp [loadsJ, dumpsJ, toJson, toJsonList, fromJson, fromJsonList, Except.map]

/-! ## The frame graph (`frames.py`, class `FrameSystem`)

`_relations` is a Python dict from ordered frame-name pairs to rigid-body
transforms (`cga3d.Vector` of the external geometricalgebra package).
Rigid transforms form a group; we model them as elements of an abstract
group `G` with `&` as multiplication (the docstring of `FrameSystem`
composes with `&` and the code inverts with `.inverse()`).

`_compute` builds a distance matrix over the frames (each stored relation
weights 1 in its stored direction and 2 in the inverse direction), runs
`scipy.sparse.csgraph.dijkstra` for all-pairs shortest-path predecessors,
walks the predecessor chain from the end frame back to the start frame
and composes the relations along it, inverting relations traversed
against their stored direction. -/

/-- Lookup in the `_relations` dict for an ordered pair of frame names. -/
def relGet {G : Type} (rel : List ((String × String) × G)) (a b : String) :
    Option G :=
  match rel with
  | [] => none
  | e :: rest => if e.1 = (a, b) then some e.2 else relGet rest a b

/-- Deduplication keeping first occurrences (`seen` accumulator). -/
def dedupFGo : List String → List String → List String
  | [], _ => []
  | x :: xs, seen =>
      if x ∈ seen then dedupFGo xs seen else x :: dedupFGo xs (x :: seen)

/-- All frame names mentioned by the relations, in order of appearance. -/
def rawNames {G : Type} (rel : List ((String × String) × G)) : List String :=
  rel.foldr (fun e acc => e.1.1 :: e.1.2 :: acc) []

/-- `list(self.frames())`: the distinct frame names.  Python iterates a
`set` in unspecified order; we fix first-appearance order, on which the
result of `_compute` does not depend for the graphs evaluated here
(their shortest paths are unique). -/
def framesList {G : Type} (rel : List ((String × String) × G)) : List String :=
  dedupFGo (rawNames rel) []

/-- The two assignments `dist[ra][rb] = 1; dist[rb][ra] = 2` of one
stored relation, as seen by the matrix entry for `(a, b)` (the second
assignment wins on a collision). -/
def weightStep {G : Type} (a b : String) (w : WithTop ℕ)
    (e : (String × String) × G) : WithTop ℕ :=
  let w1 := if e.1.1 = a ∧ e.1.2 = b then (1 : WithTop ℕ) else w
  if e.1.2 = a ∧ e.1.1 = b then 2 else w1

/-- One `dist`-matrix entry by frame name: every stored relation
`(ra, rb)` executes `dist[ra][rb] = 1` and then `dist[rb][ra] = 2` (on a
collision the later assignment wins, matching dict iteration order);
missing entries are `∞`. -/
def weightN {G : Type} (rel : List ((String × String) × G)) (a b : String) : WithTop ℕ :=
  rel.foldl (weightStep a b) ⊤

/-- The `dist` matrix indexed over `framesList`. -/
def wIdx {G : Type} (rel : List ((String × String) × G)) (fl : List String)
    (i j : Nat) : WithTop ℕ :=
  match fl[i]?, fl[j]? with
  | some x, some y => weightN rel x y
  | _, _ => ⊤

/-- One relaxation round over the vertices `0..n-1`.  Iterated `n` times
this computes single-source shortest distances — the distances
`scipy.sparse.csgraph.dijkstra` returns (all weights here are ≥ 1). -/
def relaxStep (n : Nat) (w : Nat → Nat → WithTop ℕ) (d : Nat → WithTop ℕ) : Nat → WithTop ℕ :=
  fun j => min (d j) ((Finset.range n).inf fun u => d u + w u j)

def spDistAux (n : Nat) (w : Nat → Nat → WithTop ℕ) (s : Nat) : Nat → Nat → WithTop ℕ
  | 0 => fun j => if j = s then 0 else ⊤
  | k + 1 => relaxStep n w (spDistAux n w s k)

/-- Shortest distance from source `s` to `j`. -/
def spDist (n : Nat) (w : Nat → Nat → WithTop ℕ) (s j : Nat) : WithTop ℕ :=
  spDistAux n w s n j

/-- `predecessors[s, j]` of scipy's `dijkstra`: the vertex preceding `j`
on the shortest path from `s`; `none` is scipy's −9999 sentinel (for
`j = s` or unreachable `j`).  A vertex `u` with `d(u) + w(u,j) = d(j)`
precedes `j` on some shortest path; on the graphs evaluated here the
shortest paths are unique, so the first such `u` is scipy's answer. -/
def spPred (n : Nat) (w : Nat → Nat → WithTop ℕ) (s j : Nat) : Option Nat :=
  if j = s then none
  else if spDist n w s j = ⊤ then none
  else (List.range n).find? fun u => decide (spDist n w s u + w u j = spDist n w s j)

/-- The chain-walking loop of `_compute`
(`while chain[-1] != a: chain.append(predecessors[a, chain[-1]])`), with
the vertex count as fuel (a shortest path visits each vertex at most
once).  A −9999 predecessor makes the Python code index out of bounds
(`IndexError`); that and fuel exhaustion are `none`. -/
def buildChain (n : Nat) (w : Nat → Nat → WithTop ℕ) (s : Nat) :
    Nat → Nat → Option (List Nat)
  | 0, _ => none
  | fuel + 1, j =>
      if j = s then some [j]
      else
        match spPred n w s j with
        | none => none
        | some u => (buildChain n w s fuel u).map fun c => j :: c

/-- `self._relations[ra, rb] if (ra, rb) in self._relations else
self._relations[rb, ra].inverse()`; `none` is the (unreachable)
`KeyError`. -/
def lookupT {G : Type} [Group G] (rel : List ((String × String) × G))
    (ra rb : String) : Option G :=
  match relGet rel ra rb with
  | some t => some t
  | none => (relGet rel rb ra).map (·⁻¹)

/-- The composition loop
`for rb, ra in zip(chain_frames, chain_frames[1:]): v = t & v`, from the
identity. -/
def composeChainAux {G : Type} [Group G] (rel : List ((String × String) × G))
    (pairs : List (String × String)) (acc : Option G) : Option G :=
  pairs.foldl
    (fun a p => a.bind fun v => (lookupT rel p.2 p.1).map fun t => t * v)
    acc

def composeChain {G : Type} [Group G] (rel : List ((String × String) × G))
    (pairs : List (String × String)) : Option G :=
  composeChainAux rel pairs (some 1)

/-- `FrameSystem._compute(start, dst)`. -/
def fsCompute {G : Type} [Group G] (rel : List ((String × String) × G))
    (start dst : String) : Except String G :=
  let fl := framesList rel
  match fl.findIdx? (fun y => y == start), fl.findIdx? (fun y => y == dst) with
  | some a, some b =>
      match buildChain fl.length (wIdx rel fl) a fl.length b with
      | none => .error "no path between frames (IndexError)"
      | some idxChain =>
          let names := idxChain.map fun i => fl.getD i ""
          match composeChain rel (names.zip names.tail) with
          | some v => .ok v
          | none => .error "missing relation (KeyError)"
  | _, _ => .error "frame not in graph (ValueError)"

/-- `FrameSystem.eval(target, source)`: return the stored relation when
the ordered pair is present, otherwise `_compute`. -/
def fsEval {G : Type} [Group G] (rel : List ((String × String) × G))
    (target source : String) : Except String G :=
  match relGet rel target source with
  | some t => .ok t
  | none => fsCompute rel target source

/-- The relations of a stored chain `names₀ → names₁ → … → namesₙ` with
transform `ts k` on the k-th edge. -/
def chainRel {G : Type} (names : List String) (ts : List G) :
    List ((String × String) × G) :=
  ((names.zip names.tail).zip ts).map fun p => ((p.1.1, p.1.2), p.2)

/-- The weight matrix of a chain with vertices `0..n`: edge `i → i+1`
weighs 1, its inverse 2, everything else `∞`. -/
def wChain (n : Nat) : Nat → Nat → WithTop ℕ :=
  fun i j =>
    if j = i + 1 ∧ j ≤ n then 1 else if i = j + 1 ∧ i ≤ n then 2 else ⊤

/-- The index chain `[j, j-1, …, 0]` that the predecessor walk builds. -/
def descList : Nat → List Nat
  | 0 => [0]
  | j + 1 => (j + 1) :: descList j

theorem wChain_lb_inf (n : Nat) (d : Nat → WithTop ℕ)
    (hd : ∀ u : Nat, (u : WithTop ℕ) ≤ d u) (j : Nat) :
    (j : WithTop ℕ) ≤ (Finset.range (n + 1)).inf fun u => d u + wChain n u j := by
  apply Finset.le_inf
  intro u _
  by_cases h1 : j = u + 1 ∧ j ≤ n
  · rw [show wChain n u j = 1 from by simp only [wChain]; rw [if_pos h1]]
    calc (j : WithTop ℕ) = ((u + 1 : ℕ) : WithTop ℕ) := by rw [h1.1]
      _ = (u : WithTop ℕ) + 1 := by push_cast; rfl
      _ ≤ d u + 1 := add_le_add_right (hd u) 1
  · by_cases h2 : u = j + 1 ∧ u ≤ n
    · rw [show wChain n u j = 2 from by
        simp only [wChain]; rw [if_neg h1, if_pos h2]]
      calc (j : WithTop ℕ) ≤ ((u : ℕ) : WithTop ℕ) + 2 := by
            rw [h2.1]
            push_cast
            calc ((j : ℕ) : WithTop ℕ) ≤ (j : WithTop ℕ) + (1 + 2) := le_self_add
              _ = (j : WithTop ℕ) + 1 + 2 := by rw [add_assoc]
        _ ≤ d u + 2 := add_le_add_right (hd u) 2
    · rw [show wChain n u j = ⊤ from by
        simp only [wChain]; rw [if_neg h1, if_neg h2]]
      rw [add_top]
      exact le_top

theorem wChain_lb (n : Nat) :
    ∀ (k j : Nat), (j : WithTop ℕ) ≤ spDistAux (n + 1) (wChain n) 0 k j := by
  intro k
  induction k with
  | zero =>
      intro j
      simp only [spDistAux]
      by_cases hj : j = 0
      · subst hj
        simp
      · rw [if_neg hj]
        exact le_top
  | succ k ih =>
      intro j
      simp only [spDistAux, relaxStep]
      exact le_min (ih j) (wChain_lb_inf n _ ih j)

theorem spDistAux_chain (n : Nat) : ∀ (k j : Nat), j ≤ n → j ≤ k →
    spDistAux (n + 1) (wChain n) 0 k j = (j : WithTop ℕ) := by
  intro k
  induction k with
  | zero =>
      intro j _ hj0
      have hj : j = 0 := Nat.le_zero.mp hj0
      subst hj
      simp [spDistAux]
  | succ k ih =>
      intro j hjn hjk
      simp only [spDistAux, relaxStep]
      apply le_antisymm
      · rcases Nat.lt_or_ge j (k + 1) with hlt | hge
        · have hjk2 : j ≤ k := by omega
          exact min_le_of_left_le (le_of_eq (ih j hjn hjk2))
        · have hjeq : j = k + 1 := le_antisymm hjk hge
          apply min_le_of_right_le
          have hmem : k ∈ Finset.range (n + 1) := Finset.mem_range.mpr (by omega)
          calc (Finset.range (n + 1)).inf
                (fun u => spDistAux (n + 1) (wChain n) 0 k u + wChain n u j)
              ≤ spDistAux (n + 1) (wChain n) 0 k k + wChain n k j :=
                Finset.inf_le hmem
            _ = (k : WithTop ℕ) + 1 := by
                rw [ih k (by omega) le_rfl,
                  show wChain n k j = 1 from by
                    simp only [wChain]; rw [if_pos ⟨by omega, hjn⟩]]
            _ = ((j : ℕ) : WithTop ℕ) := by rw [hjeq]; push_cast; rfl
      · exact le_min (wChain_lb n k j) (wChain_lb_inf n _ (wChain_lb n k) j)

theorem spDist_chain (n j : Nat) (hj : j ≤ n) :
    spDist (n + 1) (wChain n) 0 j = (j : WithTop ℕ) :=
  spDistAux_chain n (n + 1) j hj (by omega)

theorem list_find_first_unique {α : Type} (p : α → Bool) (x : α) :
    ∀ (l : List α), x ∈ l → p x = true → (∀ y ∈ l, p y = true → y = x) →
      l.find? p = some x := by
  intro l
  induction l with
  | nil => intro hx; cases hx
  | cons a l ih =>
      intro hx hpx huniq
      by_cases hpa : p a = true
      · have ha : a = x := huniq a (List.mem_cons_self a l) hpa
        rw [List.find?_cons_of_pos _ hpa, ha]
      · rcases List.mem_cons.mp hx with rfl | hx2
        · exact absurd hpx hpa
        · rw [List.find?_cons_of_neg _ hpa]
          exact ih hx2 hpx fun y hy hpy => huniq y (List.mem_cons_of_mem a hy) hpy

theorem spPred_chain (n j : Nat) (hj1 : 1 ≤ j) (hjn : j ≤ n) :
    spPred (n + 1) (wChain n) 0 j = some (j - 1) := by
  have hdj : spDist (n + 1) (wChain n) 0 j = (j : WithTop ℕ) := spDist_chain n j hjn
  unfold spPred
  rw [if_neg (by omega : ¬ j = 0)]
  rw [if_neg (by rw [hdj]; exact WithTop.natCast_ne_top j)]
  apply list_find_first_unique
  · exact List.mem_range.mpr (by omega)
  · rw [decide_eq_true_eq, spDist_chain n (j - 1) (by omega), hdj,
      show wChain n (j - 1) j = 1 from by
        simp only [wChain]
        rw [if_pos ⟨by omega, hjn⟩]]
    calc ((j - 1 : ℕ) : WithTop ℕ) + 1 = (((j - 1) + 1 : ℕ) : WithTop ℕ) := by
          push_cast; rfl
      _ = ((j : ℕ) : WithTop ℕ) := by rw [show j - 1 + 1 = j from by omega]
  · intro u hu hpu
    rw [decide_eq_true_eq] at hpu
    have hun : u ≤ n := by
      have := List.mem_range.mp hu
      omega
    rw [spDist_chain n u hun, hdj] at hpu
    by_cases h1 : j = u + 1 ∧ j ≤ n
    · omega
    · by_cases h2 : u = j + 1 ∧ u ≤ n
      · rw [show wChain n u j = 2 from by
          simp only [wChain]; rw [if_neg h1, if_pos h2]] at hpu
        have hpu2 : ((u + 2 : ℕ) : WithTop ℕ) = ((j : ℕ) : WithTop ℕ) := by
          push_cast
          exact hpu
        have := Nat.cast_inj.mp hpu2
        omega
      · rw [show wChain n u j = ⊤ from by
          simp only [wChain]; rw [if_neg h1, if_neg h2]] at hpu
        rw [add_top] at hpu
        exact absurd hpu.symm (WithTop.natCast_ne_top j)

theorem buildChain_chain (n : Nat) : ∀ (j : Nat), j ≤ n → ∀ (fuel : Nat), j + 1 ≤ fuel →
    buildChain (n + 1) (wChain n) 0 fuel j = some (descList j) := by
  intro j
  induction j with
  | zero =>
      intro _ fuel hf
      cases fuel with
      | zero => omega
      | succ m => simp [buildChain, descList]
  | succ j ih =>
      intro hjn fuel hf
      cases fuel with
      | zero => omega
      | succ m =>
          have hpred : spPred (n + 1) (wChain n) 0 (j + 1) = some j := by
            have h := spPred_chain n (j + 1) (by omega) hjn
            simpa using h
          simp only [buildChain]
          rw [if_neg (by omega : ¬ j + 1 = 0), hpred]
          show Option.map (fun c => (j + 1) :: c)
            (buildChain (n + 1) (wChain n) 0 m j) = some (descList (j + 1))
          rw [ih (by omega) m (by omega)]
          rfl

/-! ## Structure of a stored chain -/

theorem chainRel_length {G : Type} (names : List String) (ts : List G)
    (hlen : names.length = ts.length + 1) :
    (chainRel names ts).length = ts.length := by
  unfold chainRel
  simp only [List.length_map, List.length_zip, List.length_tail, hlen]
  omega

theorem chainRel_get {G : Type} (names : List String) (ts : List G)
    (k : Nat) (hk : k < ts.length)
    (h1 : k < (chainRel names ts).length) (h2 : k < names.length)
    (h3 : k + 1 < names.length) :
    (chainRel names ts).get ⟨k, h1⟩
      = ((names.get ⟨k, h2⟩, names.get ⟨k + 1, h3⟩), ts.get ⟨k, hk⟩) := by
  unfold chainRel at h1 ⊢
  simp only [List.get_eq_getElem, List.getElem_map, List.getElem_zip,
    List.getElem_tail]

theorem chainRel_mem {G : Type} (names : List String) (ts : List G)
    (hlen : names.length = ts.length + 1) (e : (String × String) × G)
    (he : e ∈ chainRel names ts) :
    ∃ k, ∃ (hk : k < ts.length) (h2 : k < names.length) (h3 : k + 1 < names.length),
      e = ((names.get ⟨k, h2⟩, names.get ⟨k + 1, h3⟩), ts.get ⟨k, hk⟩) := by
  obtain ⟨k, hkl, hke⟩ := List.mem_iff_getElem.mp he
  have hk : k < ts.length := by
    rw [chainRel_length names ts hlen] at hkl
    exact hkl
  refine ⟨k, hk, by omega, by omega, ?_⟩
  rw [← hke]
  rw [show (chainRel names ts)[k] = (chainRel names ts).get ⟨k, hkl⟩ from rfl]
  rw [chainRel_get names ts k hk hkl (by omega) (by omega)]

theorem drop_eq_get_cons {α : Type} :
    ∀ (l : List α) (m : Nat) (h : m < l.length),
      l.drop m = l.get ⟨m, h⟩ :: l.drop (m + 1) := by
  intro l
  induction l with
  | nil => intro m h; simp at h
  | cons x xs ih =>
      intro m h
      cases m with
      | zero => rfl
      | succ m2 =>
          simp only [List.drop_succ_cons]
          rw [ih m2 (by simpa using h)]
          rfl

theorem chainRel_mem_drop {G : Type} (names : List String) (ts : List G)
    (hlen : names.length = ts.length + 1) (i : Nat) (e : (String × String) × G)
    (he : e ∈ (chainRel names ts).drop i) :
    ∃ k, i ≤ k ∧ ∃ (hk : k < ts.length) (h2 : k < names.length)
      (h3 : k + 1 < names.length),
      e = ((names.get ⟨k, h2⟩, names.get ⟨k + 1, h3⟩), ts.get ⟨k, hk⟩) := by
  obtain ⟨m, hml, hme⟩ := List.mem_iff_getElem.mp he
  rw [List.getElem_drop] at hme
  have hm2 : i + m < (chainRel names ts).length := by
    rw [List.length_drop] at hml
    omega
  have hk : i + m < ts.length := by
    rw [chainRel_length names ts hlen] at hm2
    exact hm2
  refine ⟨i + m, by omega, hk, by omega, by omega, ?_⟩
  rw [← hme]
  rw [show (chainRel names ts)[i + m] = (chainRel names ts).get ⟨i + m, hm2⟩ from rfl]
  rw [chainRel_get names ts (i + m) hk hm2 (by omega) (by omega)]

theorem chainRel_mem_take {G : Type} (names : List String) (ts : List G)
    (hlen : names.length = ts.length + 1) (i : Nat) (e : (String × String) × G)
    (he : e ∈ (chainRel names ts).take i) :
    ∃ k, k < i ∧ ∃ (hk : k < ts.length) (h2 : k < names.length)
      (h3 : k + 1 < names.length),
      e = ((names.get ⟨k, h2⟩, names.get ⟨k + 1, h3⟩), ts.get ⟨k, hk⟩) := by
  obtain ⟨m, hml, hme⟩ := List.mem_iff_getElem.mp he
  have hmi : m < i := by
    have := hml
    rw [List.length_take] at this
    omega
  have hm2 : m < (chainRel names ts).length := by
    have := hml
    rw [List.length_take] at this
    omega
  rw [List.getElem_take] at hme
  have hk : m < ts.length := by
    rw [chainRel_length names ts hlen] at hm2
    exact hm2
  refine ⟨m, hmi, hk, by omega, by omega, ?_⟩
  rw [← hme]
  rw [show (chainRel names ts)[m] = (chainRel names ts).get ⟨m, hm2⟩ from rfl]
  rw [chainRel_get names ts m hk hm2 (by omega) (by omega)]

/-! ## The weight matrix of a stored chain -/

theorem weightStep_nomatch {G : Type} (a b : String) (w : WithTop ℕ)
    (e : (String × String) × G) (h1 : ¬(e.1.1 = a ∧ e.1.2 = b))
    (h2 : ¬(e.1.2 = a ∧ e.1.1 = b)) : weightStep a b w e = w := by
  simp only [weightStep]
  rw [if_neg h1, if_neg h2]

theorem foldl_weightStep_nomatch {G : Type} (a b : String) :
    ∀ (l : List ((String × String) × G)),
      (∀ e ∈ l, ¬(e.1.1 = a ∧ e.1.2 = b) ∧ ¬(e.1.2 = a ∧ e.1.1 = b)) →
      ∀ w, l.foldl (weightStep a b) w = w := by
  intro l
  induction l with
  | nil => intro _ w; rfl
  | cons e l ih =>
      intro h w
      have he := h e (List.mem_cons_self e l)
      rw [List.foldl_cons, weightStep_nomatch a b w e he.1 he.2]
      exact ih (fun x hx => h x (List.mem_cons_of_mem e hx)) w

theorem get_idx_congr {α : Type} (l : List α) (p q : Nat) (hp : p < l.length)
    (hq : q < l.length) (h : p = q) : l.get ⟨p, hp⟩ = l.get ⟨q, hq⟩ := by
  subst h
  rfl

theorem weightN_chain {G : Type} (names : List String) (ts : List G)
    (hnd : names.Nodup) (hlen : names.length = ts.length + 1)
    (i j : Nat) (hi : i < names.length) (hj : j < names.length) :
    weightN (chainRel names ts) (names.get ⟨i, hi⟩) (names.get ⟨j, hj⟩)
      = wChain ts.length i j := by
  have hinj : ∀ (p q : Nat) (hp : p < names.length) (hq : q < names.length),
      names.get ⟨p, hp⟩ = names.get ⟨q, hq⟩ → p = q := by
    intro p q hp hq hpq
    simp only [List.get_eq_getElem] at hpq
    exact (List.Nodup.getElem_inj_iff hnd).mp hpq
  by_cases hcase1 : j = i + 1 ∧ j ≤ ts.length
  · -- forward edge: entry i sets the weight to 1, nothing later touches it
    obtain ⟨hj1, hj2⟩ := hcase1
    have hkts : i < ts.length := by omega
    have hrl : i < (chainRel names ts).length := by
      rw [chainRel_length names ts hlen]; omega
    have hsplit : chainRel names ts
        = (chainRel names ts).take i
          ++ (chainRel names ts).get ⟨i, hrl⟩ :: (chainRel names ts).drop (i + 1) := by
      rw [← drop_eq_get_cons]
      exact (List.take_append_drop i (chainRel names ts)).symm
    rw [show wChain ts.length i j = 1 from by
      simp only [wChain]; rw [if_pos ⟨hj1, hj2⟩]]
    rw [weightN, hsplit, List.foldl_append, List.foldl_cons]
    rw [chainRel_get names ts i hkts hrl (by omega) (by omega)]
    have hstep : weightStep (names.get ⟨i, hi⟩) (names.get ⟨j, hj⟩)
        (List.foldl (weightStep (names.get ⟨i, hi⟩) (names.get ⟨j, hj⟩)) ⊤
          ((chainRel names ts).take i))
        ((names.get ⟨i, by omega⟩, names.get ⟨i + 1, by omega⟩), ts.get ⟨i, hkts⟩)
        = 1 := by
      simp only [weightStep]
      rw [if_neg ?hneg2]
      case hneg2 =>
        rintro ⟨hx, _⟩
        have := hinj (i + 1) i (by omega) hi hx
        omega
      rw [if_pos ⟨trivial, get_idx_congr names (i + 1) j (by omega) hj (by omega)⟩]
    rw [hstep]
    apply foldl_weightStep_nomatch
    intro e he
    obtain ⟨k, hki, hkt, hk2, hk3, hke⟩ :=
      chainRel_mem_drop names ts hlen (i + 1) e he
    subst hke
    constructor
    · rintro ⟨hx, hy⟩
      have := hinj k i hk2 hi hx
      omega
    · rintro ⟨hx, hy⟩
      have := hinj (k + 1) i hk3 hi hx
      have := hinj k j hk2 hj hy
      omega
  · by_cases hcase2 : i = j + 1 ∧ i ≤ ts.length
    · -- inverse edge: entry j sets the weight to 2
      obtain ⟨hi1, hi2⟩ := hcase2
      have hkts : j < ts.length := by omega
      have hrl : j < (chainRel names ts).length := by
        rw [chainRel_length names ts hlen]; omega
      have hsplit : chainRel names ts
          = (chainRel names ts).take j
            ++ (chainRel names ts).get ⟨j, hrl⟩ :: (chainRel names ts).drop (j + 1) := by
        rw [← drop_eq_get_cons]
        exact (List.take_append_drop j (chainRel names ts)).symm
      rw [show wChain ts.length i j = 2 from by
        simp only [wChain]; rw [if_neg hcase1, if_pos ⟨hi1, hi2⟩]]
      rw [weightN, hsplit, List.foldl_append, List.foldl_cons]
      rw [chainRel_get names ts j hkts hrl (by omega) (by omega)]
      have hstep : weightStep (names.get ⟨i, hi⟩) (names.get ⟨j, hj⟩)
          (List.foldl (weightStep (names.get ⟨i, hi⟩) (names.get ⟨j, hj⟩)) ⊤
            ((chainRel names ts).take j))
          ((names.get ⟨j, by omega⟩, names.get ⟨j + 1, by omega⟩), ts.get ⟨j, hkts⟩)
          = 2 := by
        simp only [weightStep]
        rw [if_pos ⟨get_idx_congr names (j + 1) i (by omega) hi (by omega), trivial⟩]
      rw [hstep]
      apply foldl_weightStep_nomatch
      intro e he
      obtain ⟨k, hki, hkt, hk2, hk3, hke⟩ :=
        chainRel_mem_drop names ts hlen (j + 1) e he
      subst hke
      constructor
      · rintro ⟨hx, hy⟩
        have := hinj k i hk2 hi hx
        have := hinj (k + 1) j hk3 hj hy
        omega
      · rintro ⟨hx, hy⟩
        have := hinj k j hk2 hj hy
        omega
    · -- no edge between i and j
      rw [show wChain ts.length i j = ⊤ from by
        simp only [wChain]; rw [if_neg hcase1, if_neg hcase2]]
      rw [weightN]
      apply foldl_weightStep_nomatch
      intro e he
      obtain ⟨k, hkt, hk2, hk3, hke⟩ := chainRel_mem names ts hlen e he
      subst hke
      constructor
      · rintro ⟨hx, hy⟩
        have := hinj k i hk2 hi hx
        have := hinj (k + 1) j hk3 hj hy
        omega
      · rintro ⟨hx, hy⟩
        have := hinj (k + 1) i hk3 hi hx
        have := hinj k j hk2 hj hy
        omega

/-! ## `relGet` on a stored chain -/

theorem relGet_nomatch {G : Type} (a b : String) :
    ∀ (l : List ((String × String) × G)), (∀ e ∈ l, e.1 ≠ (a, b)) →
      relGet l a b = none := by
  intro l
  induction l with
  | nil => intro _; rfl
  | cons e l ih =>
      intro h
      rw [relGet, if_neg (h e (List.mem_cons_self e l))]
      exact ih fun x hx => h x (List.mem_cons_of_mem e hx)

theorem relGet_append_nomatch {G : Type} (a b : String)
    (l1 l2 : List ((String × String) × G)) (h : ∀ e ∈ l1, e.1 ≠ (a, b)) :
    relGet (l1 ++ l2) a b = relGet l2 a b := by
  induction l1 with
  | nil => rfl
  | cons e l ih =>
      rw [List.cons_append, relGet, if_neg (h e (List.mem_cons_self e l))]
      exact ih fun x hx => h x (List.mem_cons_of_mem e hx)

theorem relGet_chain_fwd {G : Type} (names : List String) (ts : List G)
    (hnd : names.Nodup) (hlen : names.length = ts.length + 1)
    (k : Nat) (hk : k < ts.length) (h2 : k < names.length) (h3 : k + 1 < names.length) :
    relGet (chainRel names ts) (names.get ⟨k, h2⟩) (names.get ⟨k + 1, h3⟩)
      = some (ts.get ⟨k, hk⟩) := by
  have hinj : ∀ (p q : Nat) (hp : p < names.length) (hq : q < names.length),
      names.get ⟨p, hp⟩ = names.get ⟨q, hq⟩ → p = q := by
    intro p q hp hq hpq
    simp only [List.get_eq_getElem] at hpq
    exact (List.Nodup.getElem_inj_iff hnd).mp hpq
  have hrl : k < (chainRel names ts).length := by
    rw [chainRel_length names ts hlen]; omega
  have hsplit : chainRel names ts
      = (chainRel names ts).take k
        ++ (chainRel names ts).get ⟨k, hrl⟩ :: (chainRel names ts).drop (k + 1) := by
    rw [← drop_eq_get_cons]
    exact (List.take_append_drop k (chainRel names ts)).symm
  rw [hsplit, relGet_append_nomatch]
  · rw [chainRel_get names ts k hk hrl h2 h3, relGet,
      if_pos rfl]
  · intro e he
    obtain ⟨m, hmk, hmt, hm2, hm3, hme⟩ :=
      chainRel_mem_take names ts hlen k e he
    subst hme
    intro hkey
    have h1 := congrArg Prod.fst hkey
    have := hinj m k hm2 h2 h1
    omega

theorem relGet_chain_none {G : Type} (names : List String) (ts : List G)
    (hnd : names.Nodup) (hlen : names.length = ts.length + 1)
    (x y : String) (i j : Nat) (hi : i < names.length) (hj : j < names.length)
    (hx : x = names.get ⟨i, hi⟩) (hy : y = names.get ⟨j, hj⟩)
    (hnj : j ≠ i + 1) :
    relGet (chainRel names ts) x y = none := by
  have hinj : ∀ (p q : Nat) (hp : p < names.length) (hq : q < names.length),
      names.get ⟨p, hp⟩ = names.get ⟨q, hq⟩ → p = q := by
    intro p q hp hq hpq
    simp only [List.get_eq_getElem] at hpq
    exact (List.Nodup.getElem_inj_iff hnd).mp hpq
  apply relGet_nomatch
  intro e he
  obtain ⟨k, hkt, hk2, hk3, hke⟩ := chainRel_mem names ts hlen e he
  subst hke
  subst hx
  subst hy
  intro hkey
  have ha := congrArg Prod.fst hkey
  have hb := congrArg Prod.snd hkey
  have hki := hinj k i hk2 hi ha
  have hkj := hinj (k + 1) j hk3 hj hb
  omega

/-! ## `framesList` of a stored chain -/

theorem filter_notmem_congr (l s : List String) (c : String) (hc : c ∉ l) :
    l.filter (fun x => decide (x ∉ c :: s)) = l.filter (fun x => decide (x ∉ s)) := by
  apply List.filter_congr
  intro x hx
  have hxc : ¬ x = c := fun h => hc (h ▸ hx)
  simp [List.mem_cons, hxc]

theorem dedup_chain {G : Type} :
    ∀ (ts : List G) (names seen : List String),
      names.Nodup → names.length = ts.length + 1 → 1 ≤ ts.length →
      dedupFGo (rawNames (chainRel names ts)) seen
        = names.filter (fun x => decide (x ∉ seen)) := by
  intro ts
  induction ts with
  | nil =>
      intro names seen _ _ h
      simp at h
  | cons t ts2 ih =>
      intro names seen hnd hlen _
      rcases names with _ | ⟨a, _ | ⟨b, rest⟩⟩
      · simp at hlen
      · simp at hlen
      · have hraw : rawNames (chainRel (a :: b :: rest) (t :: ts2))
            = a :: b :: rawNames (chainRel (b :: rest) ts2) := rfl
        have hab : ¬ a = b := by
          have := (List.nodup_cons.mp hnd).1
          intro h
          exact this (h ▸ List.mem_cons_self b rest)
        have hnd2 : (b :: rest).Nodup := (List.nodup_cons.mp hnd).2
        have hanotb : a ∉ b :: rest := (List.nodup_cons.mp hnd).1
        have hanotrest : a ∉ rest := fun h => hanotb (List.mem_cons_of_mem b h)
        have hbnotrest : b ∉ rest := (List.nodup_cons.mp hnd2).1
        rw [hraw]
        cases ts2 with
        | nil =>
            have hrest : rest = [] := by
              simp only [List.length_cons, List.length_nil] at hlen
              exact List.eq_nil_of_length_eq_zero (by omega)
            subst hrest
            show dedupFGo [a, b] seen
              = (a :: [b]).filter (fun x => decide (x ∉ seen))
            have hba : ¬ b = a := fun h => hab h.symm
            by_cases hA : a ∈ seen <;> by_cases hB : b ∈ seen <;>
              simp [dedupFGo, hA, hB, List.filter, hab, hba]
        | cons t3 ts3 =>
            have hlen2 : (b :: rest).length = (t3 :: ts3).length + 1 := by
              simp at hlen ⊢
              omega
            have hts2 : 1 ≤ (t3 :: ts3).length := by simp
            by_cases hA : a ∈ seen
            · by_cases hB : b ∈ seen
              · rw [show dedupFGo (a :: b :: rawNames (chainRel (b :: rest) (t3 :: ts3))) seen
                    = dedupFGo (rawNames (chainRel (b :: rest) (t3 :: ts3))) seen from by
                  simp [dedupFGo, hA, hB]]
                rw [ih (b :: rest) seen hnd2 hlen2 hts2]
                simp [List.filter, hA, hB]
              · rw [show dedupFGo (a :: b :: rawNames (chainRel (b :: rest) (t3 :: ts3))) seen
                    = b :: dedupFGo (rawNames (chainRel (b :: rest) (t3 :: ts3))) (b :: seen)
                    from by simp [dedupFGo, hA, hB]]
                rw [ih (b :: rest) (b :: seen) hnd2 hlen2 hts2]
                rw [show (b :: rest).filter (fun x => decide (x ∉ b :: seen))
                    = rest.filter (fun x => decide (x ∉ b :: seen)) from by
                  simp [List.filter]]
                rw [filter_notmem_congr rest seen b hbnotrest]
                simp [List.filter, hA, hB]
            · by_cases hB : b ∈ seen
              · have hBa : b ∈ a :: seen := List.mem_cons_of_mem a hB
                rw [show dedupFGo (a :: b :: rawNames (chainRel (b :: rest) (t3 :: ts3))) seen
                    = a :: dedupFGo (rawNames (chainRel (b :: rest) (t3 :: ts3))) (a :: seen)
                    from by simp [dedupFGo, hA, hBa]]
                rw [ih (b :: rest) (a :: seen) hnd2 hlen2 hts2]
                rw [show (b :: rest).filter (fun x => decide (x ∉ a :: seen))
                    = rest.filter (fun x => decide (x ∉ a :: seen)) from by
                  simp [List.filter, List.mem_cons, hB]]
                rw [filter_notmem_congr rest seen a hanotrest]
                simp [List.filter, hA, hB]
              · have hBa : b ∉ a :: seen := by
                  simp [List.mem_cons, hB]
                  intro h
                  exact hab h.symm
                rw [show dedupFGo (a :: b :: rawNames (chainRel (b :: rest) (t3 :: ts3))) seen
                    = a :: b :: dedupFGo (rawNames (chainRel (b :: rest) (t3 :: ts3)))
                        (b :: a :: seen)
                    from by simp [dedupFGo, hA, hBa]]
                rw [ih (b :: rest) (b :: a :: seen) hnd2 hlen2 hts2]
                rw [show (b :: rest).filter (fun x => decide (x ∉ b :: a :: seen))
                    = rest.filter (fun x => decide (x ∉ b :: a :: seen)) from by
                  simp [List.filter]]
                rw [filter_notmem_congr rest (a :: seen) b hbnotrest,
                  filter_notmem_congr rest seen a hanotrest]
                simp [List.filter, hA, hB]

theorem framesList_chain {G : Type} (names : List String) (ts : List G)
    (hnd : names.Nodup) (hlen : names.length = ts.length + 1)
    (hts : 1 ≤ ts.length) :
    framesList (chainRel names ts) = names := by
  unfold framesList
  rw [dedup_chain ts names [] hnd hlen hts]
  apply List.filter_eq_self.mpr
  intro x _
  simp

/-! ## `findIdx?` over a nodup list -/

theorem findIdx_nodup :
    ∀ (l : List String), l.Nodup → ∀ (i : Nat) (hi : i < l.length),
      l.findIdx? (fun y => y == l.get ⟨i, hi⟩) = some i := by
  intro l
  induction l with
  | nil => intro _ i hi; simp at hi
  | cons x xs ih =>
      intro hnd i hi
      cases i with
      | zero =>
          rw [List.findIdx?_cons]
          simp
      | succ i2 =>
          have hi2 : i2 < xs.length := by simpa using hi
          have hget : (x :: xs).get ⟨i2 + 1, hi⟩ = xs.get ⟨i2, hi2⟩ := rfl
          have hxne : ¬ x = xs.get ⟨i2, hi2⟩ := by
            intro h
            exact (List.nodup_cons.mp hnd).1 (h ▸ List.get_mem xs i2 hi2)
          have hx : (x == (x :: xs).get ⟨i2 + 1, hi⟩) = false := by
            rw [hget]
            simpa using hxne
          rw [List.findIdx?_cons, hx]
          simp only [Bool.false_eq_true, if_false]
          rw [List.findIdx?_succ]
          rw [show (fun y => y == (x :: xs).get ⟨i2 + 1, hi⟩)
              = (fun y => y == xs.get ⟨i2, hi2⟩) from by rw [hget]]
          rw [ih (List.nodup_cons.mp hnd).2 i2 hi2]
          rfl

/-! ## Mapping the index chain back to frame names -/

theorem descList_map_getD (l : List String) :
    ∀ (j : Nat), j < l.length →
      (descList j).map (fun i => l.getD i "") = (l.take (j + 1)).reverse := by
  intro j
  induction j with
  | zero =>
      intro hj
      rcases l with _ | ⟨x, xs⟩
      · simp at hj
      · simp [descList]
  | succ j ih =>
      intro hj
      have hjlt : j < l.length := by omega
      have hmap : (descList (j + 1)).map (fun i => l.getD i "")
          = l.getD (j + 1) "" :: (descList j).map (fun i => l.getD i "") := rfl
      rw [hmap, ih hjlt]
      have hgd : l.getD (j + 1) "" = l[j + 1] := List.getD_eq_getElem l "" hj
      rw [hgd]
      conv_rhs => rw [List.take_succ]
      rw [List.getElem?_eq_getElem hj]
      rw [List.reverse_append]
      rfl

/-! ## The composition loop on a reversed chain -/

theorem composeAux_chain {G : Type} [Group G] (rel : List ((String × String) × G)) :
    ∀ (M : List String) (us : List G) (v : G),
      M.length = us.length + 1 →
      (∀ (k : Nat) (hk : k < us.length) (hk1 : k + 1 < M.length) (hk0 : k < M.length),
        lookupT rel (M.get ⟨k + 1, hk1⟩) (M.get ⟨k, hk0⟩) = some (us.get ⟨k, hk⟩)) →
      composeChainAux rel (M.zip M.tail) (some v) = some (us.reverse.prod * v) := by
  intro M
  induction M with
  | nil =>
      intro us v hlen
      simp at hlen
  | cons m0 M1 ih =>
      intro us v hlen hlk
      cases M1 with
      | nil =>
          cases us with
          | cons u us1 => simp at hlen
          | nil =>
              show composeChainAux rel [] (some v) = _
              simp [composeChainAux]
      | cons m1 M2 =>
          cases us with
          | nil => simp at hlen
          | cons u0 us1 =>
              have hlen2 : (m1 :: M2).length = us1.length + 1 := by
                simpa using hlen
              have hstep : lookupT rel m1 m0 = some u0 := by
                have h := hlk 0 (by simp) (by simp) (by simp)
                simpa using h
              have hz : (m0 :: m1 :: M2).zip (m0 :: m1 :: M2).tail
                  = (m0, m1) :: ((m1 :: M2).zip (m1 :: M2).tail) := rfl
              rw [hz]
              show List.foldl
                  (fun a p => a.bind fun w => (lookupT rel p.2 p.1).map fun t => t * w)
                  (some v) ((m0, m1) :: ((m1 :: M2).zip (m1 :: M2).tail))
                = some ((u0 :: us1).reverse.prod * v)
              rw [List.foldl_cons]
              have hfst : ((some v).bind fun w =>
                  (lookupT rel m1 m0).map fun t => t * w) = some (u0 * v) := by
                rw [Option.some_bind, hstep]
                rfl
              rw [hfst]
              have hih := ih us1 (u0 * v) hlen2 ?hlk2
              case hlk2 =>
                intro k hk hk1 hk0
                have h := hlk (k + 1) (by simpa using hk) (by simpa using hk1)
                  (by simpa using hk0)
                simpa using h
              rw [show List.foldl
                  (fun a p => a.bind fun w => (lookupT rel p.2 p.1).map fun t => t * w)
                  (some (u0 * v)) ((m1 :: M2).zip (m1 :: M2).tail)
                = composeChainAux rel ((m1 :: M2).zip (m1 :: M2).tail) (some (u0 * v))
                from rfl]
              rw [hih]
              rw [show (u0 :: us1).reverse = us1.reverse ++ [u0] from by simp]
              rw [List.prod_append, List.prod_singleton, mul_assoc]

/-! ## The indexed weight matrix of a stored chain -/

theorem wChain_top_out (n i j : Nat) (h : n + 1 ≤ i ∨ n + 1 ≤ j) :
    wChain n i j = ⊤ := by
  simp only [wChain]
  rw [if_neg (by omega), if_neg (by omega)]

theorem wIdx_chain {G : Type} (names : List String) (ts : List G)
    (hnd : names.Nodup) (hlen : names.length = ts.length + 1) :
    wIdx (chainRel names ts) names = wChain ts.length := by
  funext i j
  unfold wIdx
  by_cases hi : i < names.length
  · by_cases hj : j < names.length
    · rw [List.getElem?_eq_getElem hi, List.getElem?_eq_getElem hj]
      exact weightN_chain names ts hnd hlen i j hi hj
    · rw [List.getElem?_eq_getElem hi, List.getElem?_eq_none (by omega)]
      exact (wChain_top_out ts.length i j (Or.inr (by omega))).symm
  · rw [List.getElem?_eq_none (by omega : names.length ≤ i)]
    rcases hjq : names[j]? with _ | y
    · exact (wChain_top_out ts.length i j (Or.inl (by omega))).symm
    · exact (wChain_top_out ts.length i j (Or.inl (by omega))).symm

/-! ## `_compute` on a stored chain -/

theorem composeChain_chain {G : Type} [Group G] (names : List String) (ts : List G)
    (hnd : names.Nodup) (hlen : names.length = ts.length + 1) :
    composeChain (chainRel names ts) (names.reverse.zip names.reverse.tail)
      = some ts.prod := by
  have hl : names.reverse.length = ts.reverse.length + 1 := by
    simpa using hlen
  have hlk : ∀ (k : Nat) (hk : k < ts.reverse.length)
      (hk1 : k + 1 < names.reverse.length) (hk0 : k < names.reverse.length),
      lookupT (chainRel names ts) (names.reverse.get ⟨k + 1, hk1⟩)
        (names.reverse.get ⟨k, hk0⟩) = some (ts.reverse.get ⟨k, hk⟩) := by
    intro k hk hk1 hk0
    have hkt : k < ts.length := by simpa using hk
    have hm : ts.length - 1 - k < ts.length := by omega
    have hm2 : ts.length - 1 - k < names.length := by omega
    have hm3 : ts.length - 1 - k + 1 < names.length := by omega
    have e1 : names.reverse.get ⟨k + 1, hk1⟩
        = names.get ⟨ts.length - 1 - k, hm2⟩ := by
      simp only [List.get_eq_getElem, List.getElem_reverse]
      exact get_idx_congr names _ _ (by omega) hm2 (by omega)
    have e2 : names.reverse.get ⟨k, hk0⟩
        = names.get ⟨ts.length - 1 - k + 1, hm3⟩ := by
      simp only [List.get_eq_getElem, List.getElem_reverse]
      exact get_idx_congr names _ _ (by omega) hm3 (by omega)
    have e3 : ts.reverse.get ⟨k, hk⟩ = ts.get ⟨ts.length - 1 - k, hm⟩ := by
      simp only [List.get_eq_getElem, List.getElem_reverse]
    rw [e1, e2, e3]
    unfold lookupT
    rw [relGet_chain_fwd names ts hnd hlen (ts.length - 1 - k) hm hm2 hm3]
  have h := composeAux_chain (chainRel names ts) names.reverse ts.reverse 1 hl hlk
  unfold composeChain
  rw [h, List.reverse_reverse, mul_one]

theorem fsCompute_chain {G : Type} [Group G] (names : List String) (ts : List G)
    (hnd : names.Nodup) (hlen : names.length = ts.length + 1)
    (hts : 1 ≤ ts.length) :
    fsCompute (chainRel names ts) (names.getD 0 "") (names.getD ts.length "")
      = .ok ts.prod := by
  have h0 : 0 < names.length := by omega
  have hn : ts.length < names.length := by omega
  have hfa : names.findIdx? (fun y => y == names.getD 0 "") = some 0 := by
    rw [List.getD_eq_getElem names "" h0]
    exact findIdx_nodup names hnd 0 h0
  have hfb : names.findIdx? (fun y => y == names.getD ts.length "")
      = some ts.length := by
    rw [List.getD_eq_getElem names "" hn]
    exact findIdx_nodup names hnd ts.length hn
  have hbc : buildChain names.length (wIdx (chainRel names ts) names) 0
      names.length ts.length = some (descList ts.length) := by
    rw [wIdx_chain names ts hnd hlen, hlen]
    exact buildChain_chain ts.length ts.length le_rfl (ts.length + 1) (by omega)
  have hmapn : (descList ts.length).map (fun i => names.getD i "")
      = names.reverse := by
    rw [descList_map_getD names ts.length (by omega), ← hlen, List.take_length]
  simp only [fsCompute]
  rw [framesList_chain names ts hnd hlen hts, hfa, hfb]
  simp only [hbc, hmapn, composeChain_chain names ts hnd hlen]

/-! ## `eval` on a stored chain -/

theorem fsEval_chain {G : Type} [Group G] (names : List String) (ts : List G)
    (hnd : names.Nodup) (hlen : names.length = ts.length + 1)
    (hts : 1 ≤ ts.length) :
    fsEval (chainRel names ts) (names.getD 0 "") (names.getD ts.length "")
      = .ok ts.prod := by
  rcases Nat.lt_or_ge 1 ts.length with h2 | h1
  · have hnone : relGet (chainRel names ts) (names.getD 0 "")
        (names.getD ts.length "") = none := by
      apply relGet_chain_none names ts hnd hlen _ _ 0 ts.length (by omega) (by omega)
      · exact List.getD_eq_getElem names "" (by omega)
      · exact List.getD_eq_getElem names "" (by omega)
      · omega
    unfold fsEval
    rw [hnone]
    exact fsCompute_chain names ts hnd hlen hts
  · have hn1 : ts.length = 1 := by omega
    obtain ⟨t, rfl⟩ := List.length_eq_one.mp hn1
    have h0 : 0 < names.length := by omega
    have h1lt : 1 < names.length := by omega
    have hfwd : relGet (chainRel names [t]) (names.get ⟨0, h0⟩)
        (names.get ⟨1, h1lt⟩) = some t :=
      relGet_chain_fwd names [t] hnd hlen 0 (by omega) h0 h1lt
    unfold fsEval
    rw [show names.getD ([t].length) "" = names.getD 1 "" from rfl,
      List.getD_eq_getElem names "" h0, List.getD_eq_getElem names "" h1lt]
    rw [show relGet (chainRel names [t]) names[0] names[1]
        = some t from hfwd]
    rw [show ([t] : List G).prod = t from by simp]

/-- **C7**: `FrameSystem.eval(target, source)` runs shortest paths over the
adjacency in which every stored edge weighs 1 in its stored direction and 2
in the inverse direction, and composes the transforms along the chain,
inverting edges traversed against their stored direction: (i) for any chain
of distinct frames `names₀ → names₁ → … → namesₙ` stored with transforms
`ts`, `eval(names₀, namesₙ)` is the sequential composition `ts.prod`;
(ii) an edge traversed backwards is inverted (`eval("a","b")` on the single
stored relation `("b","a") ↦ t` is `t⁻¹`); (iii) when no path connects the
two frames a runtime error is raised (the `IndexError` from walking into
scipy's −9999 predecessor sentinel). -/
theorem C7_frame_graph_eval {G : Type} [Group G] (names : List String)
    (ts : List G) (hnd : names.Nodup) (hlen : names.length = ts.length + 1)
    (hts : 1 ≤ ts.length) :
    fsEval (chainRel names ts) (names.getD 0 "") (names.getD ts.length "")
      = .ok ts.prod
    ∧ (∀ t : G, fsEval [(("b", "a"), t)] "a" "b" = .ok t⁻¹)
    ∧ (∀ t1 t2 : G, fsEval [(("a", "b"), t1), (("c", "d"), t2)] "a" "c"
        = .error "no path between frames (IndexError)") := by
  refine ⟨fsEval_chain names ts hnd hlen hts, ?_, ?_⟩
  · intro t
    show Except.ok (t⁻¹ * 1) = Except.ok t⁻¹
    rw [mul_one]
  · intro t1 t2
    rfl

theorem C7_frame_graph_eval_witness :
    (["a", "b", "c"] : List String).Nodup
    ∧ (["a", "b", "c"] : List String).length
        = ([Multiplicative.ofAdd (1 : ℤ), Multiplicative.ofAdd 2]).length + 1
    ∧ 1 ≤ ([Multiplicative.ofAdd (1 : ℤ), Multiplicative.ofAdd 2]).length
    ∧ fsEval
        (chainRel ["a", "b", "c"]
          [Multiplicative.ofAdd (1 : ℤ), Multiplicative.ofAdd 2])
        (["a", "b", "c"].getD 0 "") (["a", "b", "c"].getD 2 "")
      = .ok ([Multiplicative.ofAdd (1 : ℤ), Multiplicative.ofAdd 2]).prod :=
  ⟨by decide, by decide, by decide,
    (C7_frame_graph_eval ["a", "b", "c"]
      [Multiplicative.ofAdd (1 : ℤ), Multiplicative.ofAdd 2]
      (by decide) (by decide) (by decide)).1⟩

end WS
